import Mathlib

/-! Verification of the UPSVAC FlightFinder routing core.

The definitions below are a shallow embedding of `FlightFinder.py`:
the `RouteGraph` adjacency map (a Python `defaultdict(list)`), the
`add_route` builder, `fewest_legs` (breadth-first search),
`least_distance` (Dijkstra over the priority key
`(distance, hops, airport, path)`), and `unique_list`.

Modelling conventions:
* The `defaultdict(list)` is an association list `Graph`; `dget` is
  lookup with default `[]`, and `touch` reproduces the side effect of
  `defaultdict.__getitem__`, which inserts a missing key bound to `[]`.
  The search loops thread the graph, so this side effect is part of
  the model.
* `heapq` is modelled as a list kept sorted by the lexicographic order
  on the pushed tuples `(distance, hops, airport, path)`; `heappop`
  returns the least tuple, and tuples that compare equal under that
  order are identical, hence popping the head of the sorted list is
  observably the same as popping the heap.
* The `while` loops run on explicit fuel; the top-level wrappers pass
  a fuel value computed from the graph that is proved sufficient below
  (`none` from a loop means the fuel ran out, which the wrappers never
  trigger).
* Distances of edges already stored in the graph are `Nat`; raw route
  records, whose distances `unique_list` filters, keep the full
  Python `int` as `Int`.
-/

/-- One stored route: the dictionary
`{"dest": ..., "aircraft": ..., "distance": ...}` appended by
`RouteGraph.add_route`. -/
structure Edge where
  dest : String
  aircraft : String
  distance : Nat
  deriving DecidableEq, Repr

/-- `RouteGraph.graph`: a `defaultdict(list)` keyed by departure airport,
modelled as an association list in key insertion order. -/
abbrev Graph := List (String × List Edge)

/-- Dictionary lookup: the edge list stored under key `a`, with the
`defaultdict` default `[]` when the key is absent. -/
def dget (g : Graph) (a : String) : List Edge :=
  match g.find? (fun p => p.1 == a) with
  | some p => p.2
  | none => []

/-- The key-set side effect of `defaultdict.__getitem__`: reading a
missing key inserts it bound to `[]`. -/
def touch (g : Graph) (a : String) : Graph :=
  match g.find? (fun p => p.1 == a) with
  | some _ => g
  | none => g ++ [(a, [])]

/-- `RouteGraph.add_route`: `self.graph[dep].append(edge)`. -/
def add_route (g : Graph) (dep dst aircraft : String) (distance : Nat) : Graph :=
  match g with
  | [] => [(dep, [⟨dst, aircraft, distance⟩])]
  | (k, es) :: rest =>
    if k == dep then (k, es ++ [⟨dst, aircraft, distance⟩]) :: rest
    else (k, es) :: add_route rest dep dst aircraft distance

/-- The departure-airport keys of the graph, in insertion order. -/
def gkeys (g : Graph) : List String := g.map Prod.fst

/-- All destination airports appearing on stored edges. -/
def gdests (g : Graph) : List String := (g.map (fun p => p.2.map Edge.dest)).flatten

/-- The total number of stored edges. -/
def totalEdges (g : Graph) : Nat := (g.map (fun p => p.2.length)).sum

/-- One BFS queue entry: `(current airport, path taken to reach it)`. -/
abbrev BfsEntry := String × List String

/-- The `while queue:` loop of `fewest_legs`, on explicit fuel.  The
result pairs the Python return value with the final graph; the outer
`none` means the fuel ran out. -/
def fewestLegsLoop (endA aircraft : String) :
    Nat → Graph → List BfsEntry → List String → Option (Option (List String) × Graph)
  | 0, _, _, _ => none
  | _ + 1, g, [], _ => some (none, g)
  | fuel + 1, g, (airport, path) :: rest, visited =>
    if airport == endA then some (some path, g) else
    if airport ∈ visited then fewestLegsLoop endA aircraft fuel g rest visited else
    fewestLegsLoop endA aircraft fuel (touch g airport)
      (rest ++ ((dget g airport).filter (fun e => e.aircraft == aircraft)).map
        (fun e => (e.dest, path ++ [e.dest])))
      (airport :: visited)

/-- Fuel measure for the BFS loop: the unvisited airports that can ever
be enqueued, weighted by the edge count, plus the queue length. -/
def bfsMeasure (g : Graph) (queue : List BfsEntry) (visited : List String) : Nat :=
  (totalEdges g + 1) *
    ((gkeys g ++ gdests g ++ queue.map Prod.fst).toFinset \ visited.toFinset).card
    + queue.length

/-- Fuel passed to the BFS loop by the wrapper; proved sufficient below. -/
def bfsFuel (g : Graph) (s : String) : Nat := bfsMeasure g [(s, [s])] [] + 1

/-- `fewest_legs` including the final state of the `defaultdict`. -/
def fewest_legs_run (g : Graph) (s e aircraft : String) :
    Option (Option (List String) × Graph) :=
  fewestLegsLoop e aircraft (bfsFuel g s) g [(s, [s])] []

/-- `fewest_legs(graph, start, end, aircraft)`: the returned value. -/
def fewest_legs (g : Graph) (s e aircraft : String) : Option (List String) :=
  match fewest_legs_run g s e aircraft with
  | some (r, _) => r
  | none => none

/-- The graph after a `fewest_legs` call (the `defaultdict` may have
gained keys bound to `[]`). -/
def fewest_legs_graph (g : Graph) (s e aircraft : String) : Graph :=
  match fewest_legs_run g s e aircraft with
  | some (_, g2) => g2
  | none => g

/-- Python lexicographic `<` on lists of strings. -/
def listLt : List String → List String → Bool
  | [], [] => false
  | [], _ :: _ => true
  | _ :: _, [] => false
  | a :: l1, b :: l2 => if a < b then true else if b < a then false else listLt l1 l2

/-- One heap tuple of `least_distance`:
`(total_distance, number_of_hops, airport, path)`. -/
abbrev PqEntry := Nat × Nat × String × List String

/-- Python `<` on the heap tuples, comparing the four components
lexicographically exactly as `heapq` does. -/
def entryLt : PqEntry → PqEntry → Bool
  | (d1, h1, a1, p1), (d2, h2, a2, p2) =>
    if d1 < d2 then true else if d2 < d1 then false else
    if h1 < h2 then true else if h2 < h1 then false else
    if a1 < a2 then true else if a2 < a1 then false else
    listLt p1 p2

/-- The matching total `≤` on heap tuples: the order in which `heappop`
yields them. -/
def entryLe (x y : PqEntry) : Prop := entryLt y x = false

instance : DecidableRel entryLe := fun x y => by
  unfold entryLe; infer_instance

/-- `heapq.heappush` of several tuples: the heap is modelled as a list
sorted by `entryLe`, so each push is an ordered insertion. -/
def pushAll (pq : List PqEntry) (items : List PqEntry) : List PqEntry :=
  items.foldl (fun q x => q.orderedInsert entryLe x) pq

/-- The `best (distance, hops) seen` dictionary of `least_distance`. -/
abbrev VMap := List (String × Nat × Nat)

/-- Dictionary lookup in the `visited` map. -/
def vget (m : VMap) (a : String) : Option (Nat × Nat) :=
  (m.find? (fun p => p.1 == a)).map Prod.snd

/-- Dictionary update `visited[airport] = (dist, hops)`. -/
def vset (m : VMap) (a : String) (v : Nat × Nat) : VMap :=
  (a, v) :: m.filter (fun p => p.1 != a)

/-- The `while pq:` loop of `least_distance`, on explicit fuel.  The
result pairs the Python return value with the final graph; the outer
`none` means the fuel ran out. -/
def ldLoop (endA aircraft : String) :
    Nat → Graph → List PqEntry → VMap → Option (Option (Nat × List String) × Graph)
  | 0, _, _, _ => none
  | _ + 1, g, [], _ => some (none, g)
  | fuel + 1, g, (dist, hops, airport, path) :: rest, visited =>
    if airport == endA then some (some (dist, path), g) else
    if (match vget visited airport with
        | some (bd, bh) => decide (bd < dist) || (decide (dist = bd) && decide (bh ≤ hops))
        | none => false) then
      ldLoop endA aircraft fuel g rest visited
    else
      ldLoop endA aircraft fuel (touch g airport)
        (pushAll rest (((dget g airport).filter (fun e => e.aircraft == aircraft)).map
          (fun e => (dist + e.distance, hops + 1, e.dest, path ++ [e.dest]))))
        (vset visited airport (dist, hops))

/-- Fuel measure for the `least_distance` loop. -/
def ldMeasure (g : Graph) (pq : List PqEntry) (visited : VMap) : Nat :=
  (totalEdges g + 1) *
    ((gkeys g ++ gdests g ++ pq.map (fun x => x.2.2.1)).toFinset \
      (visited.map Prod.fst).toFinset).card
    + pq.length

/-- Fuel passed to the `least_distance` loop by the wrapper; proved
sufficient below. -/
def ldFuel (g : Graph) (s : String) : Nat := ldMeasure g [(0, 0, s, [s])] [] + 1

/-- `least_distance` including the final state of the `defaultdict`. -/
def least_distance_run (g : Graph) (s e aircraft : String) :
    Option (Option (Nat × List String) × Graph) :=
  ldLoop e aircraft (ldFuel g s) g [(0, 0, s, [s])] []

/-- `least_distance(graph, start, end, aircraft)`: the returned value. -/
def least_distance (g : Graph) (s e aircraft : String) : Option (Nat × List String) :=
  match least_distance_run g s e aircraft with
  | some (r, _) => r
  | none => none

/-- The graph after a `least_distance` call. -/
def least_distance_graph (g : Graph) (s e aircraft : String) : Graph :=
  match least_distance_run g s e aircraft with
  | some (_, g2) => g2
  | none => g

/-- One raw route record, as produced by `parse_routes_from_string`:
keys `Departure`, `Destination`, `Aircraft`, `Distance`.  The distance
is a Python `int`, hence `Int`. -/
structure RouteRecord where
  departure : String
  destination : String
  aircraft : String
  distance : Int
  deriving DecidableEq, Repr

/-- The deduplication key of `unique_list`:
`(item["Departure"], item["Destination"], item["Aircraft"], item["Distance"])`. -/
def rkey (r : RouteRecord) : String × String × String × Int :=
  (r.departure, r.destination, r.aircraft, r.distance)

/-- The loop of `unique_list`, with the `seen` set made explicit. -/
def uniqueGo : List RouteRecord → List (String × String × String × Int) → List RouteRecord
  | [], _ => []
  | item :: rest, seen =>
    if rkey item ∈ seen then uniqueGo rest seen
    else if item.distance = 0 then uniqueGo rest (rkey item :: seen)
    else item :: uniqueGo rest (rkey item :: seen)

/-- `unique_list(items)`: drop duplicate records and records whose
`Distance` equals `0`, keeping first occurrences in order. -/
def unique_list (items : List RouteRecord) : List RouteRecord := uniqueGo items []

/-- Specification counterpart of the amended C10, written from its
words rather than from the code: scan the input in order and keep a
record exactly when its distance is nonzero and the record has not
occurred earlier in the input.  Two records are duplicates precisely
when all four fields agree (that is the tuple `unique_list`
deduplicates by), so the survivors are listed in the order of their
first occurrences.  The accumulator holds the records already
scanned. -/
def uniqueSpecGo : List RouteRecord → List RouteRecord → List RouteRecord
  | [], _ => []
  | r :: rest, prev =>
    if r ∈ prev then uniqueSpecGo rest (prev ++ [r])
    else if r.distance = 0 then uniqueSpecGo rest (prev ++ [r])
    else r :: uniqueSpecGo rest (prev ++ [r])

/-- The first-occurrence scan of the amended C10, started with no
records seen. -/
def uniqueListSpec (items : List RouteRecord) : List RouteRecord := uniqueSpecGo items []

/-- Graph construction from already-filtered records
`(departure, destination, aircraft, distance)`: one `add_route` call
per record, in order, starting from the empty graph. -/
def buildGraph (records : List (String × String × String × Nat)) : Graph :=
  records.foldl (fun g r => add_route g r.1 r.2.1 r.2.2.1 r.2.2.2) []

/-- A valid path under aircraft filter `ac`: consecutive airports are
connected by a stored edge whose aircraft matches. -/
def pathOK (g : Graph) (ac : String) : List String → Prop
  | [] => True
  | [_] => True
  | a :: b :: rest => (∃ e ∈ dget g a, e.aircraft = ac ∧ e.dest = b) ∧ pathOK g ac (b :: rest)

/-- `costOf g ac p c`: the airports `p` form a valid path under filter
`ac` whose chosen edges have total distance `c`. -/
inductive costOf (g : Graph) (ac : String) : List String → Nat → Prop
  | single (a : String) : costOf g ac [a] 0
  | cons {a b : String} {rest : List String} {e : Edge} {c : Nat} :
      e ∈ dget g a → e.aircraft = ac → e.dest = b →
      costOf g ac (b :: rest) c → costOf g ac (a :: b :: rest) (e.distance + c)

/-- The graph `g2` extends `g` by appending fresh keys bound to `[]`:
the only change a search can make to the `defaultdict`. -/
def TouchExt (g g2 : Graph) : Prop :=
  ∃ t : Graph, g2 = g ++ t ∧ ∀ p ∈ t, p.2 = ([] : List Edge)

/-! ### The defaultdict model: touching keys never changes lookups -/

theorem touchExt_refl (g : Graph) : TouchExt g g :=
  ⟨[], by simp, by simp⟩

theorem touchExt_touch (g : Graph) (a : String) : TouchExt g (touch g a) := by
  unfold touch
  cases g.find? (fun p => p.1 == a) with
  | some p => exact touchExt_refl g
  | none => exact ⟨[(a, [])], rfl, by simp⟩

theorem TouchExt.trans {g1 g2 g3 : Graph} (h1 : TouchExt g1 g2) (h2 : TouchExt g2 g3) :
    TouchExt g1 g3 := by
  obtain ⟨t1, rfl, he1⟩ := h1
  obtain ⟨t2, rfl, he2⟩ := h2
  refine ⟨t1 ++ t2, by simp, ?_⟩
  intro p hp
  rcases List.mem_append.mp hp with h | h
  · exact he1 p h
  · exact he2 p h

theorem TouchExt.dget_eq {g g2 : Graph} (h : TouchExt g g2) (b : String) :
    dget g2 b = dget g b := by
  obtain ⟨t, rfl, he⟩ := h
  unfold dget
  rw [List.find?_append]
  cases hg : g.find? (fun p => p.1 == b) with
  | some p => rfl
  | none =>
    simp only [Option.none_or]
    cases ht : t.find? (fun p => p.1 == b) with
    | none => rfl
    | some q => exact he q (List.mem_of_find?_eq_some ht)

theorem TouchExt.find?_eq {g g2 : Graph} (h : TouchExt g g2) {k : String}
    (hk : k ∈ gkeys g) : g2.find? (fun p => p.1 == k) = g.find? (fun p => p.1 == k) := by
  obtain ⟨t, rfl, _⟩ := h
  rw [List.find?_append]
  obtain ⟨p, hp, hpk⟩ := List.mem_map.mp hk
  have : (g.find? (fun q => q.1 == k)).isSome := by
    rw [List.find?_isSome]
    exact ⟨p, hp, by simp [hpk]⟩
  cases hg : g.find? (fun q => q.1 == k) with
  | some q => rfl
  | none => rw [hg] at this; simp at this

theorem totalEdges_touch (g : Graph) (a : String) : totalEdges (touch g a) = totalEdges g := by
  unfold touch
  cases g.find? (fun p => p.1 == a) with
  | some p => rfl
  | none => simp [totalEdges]

theorem gdests_touch (g : Graph) (a : String) : gdests (touch g a) = gdests g := by
  unfold touch
  cases g.find? (fun p => p.1 == a) with
  | some p => rfl
  | none => simp [gdests]

theorem gkeys_touch (g : Graph) (a x : String) (hx : x ∈ gkeys (touch g a)) :
    x ∈ gkeys g ∨ x = a := by
  unfold touch at hx
  cases hf : g.find? (fun p => p.1 == a) with
  | some p => rw [hf] at hx; exact Or.inl hx
  | none =>
    rw [hf] at hx
    unfold gkeys at hx
    rw [List.map_append, List.mem_append] at hx
    rcases hx with h | h
    · exact Or.inl h
    · simp at h
      exact Or.inr h

theorem dest_mem_gdests {g : Graph} {a : String} {e : Edge} (he : e ∈ dget g a) :
    e.dest ∈ gdests g := by
  unfold dget at he
  cases hf : g.find? (fun p => p.1 == a) with
  | none => rw [hf] at he; simp at he
  | some p =>
    rw [hf] at he
    have hp : p ∈ g := List.mem_of_find?_eq_some hf
    unfold gdests
    rw [List.mem_flatten]
    exact ⟨p.2.map Edge.dest, List.mem_map.mpr ⟨p, hp, rfl⟩, List.mem_map.mpr ⟨e, he, rfl⟩⟩

theorem dget_length_le (g : Graph) (a : String) : (dget g a).length ≤ totalEdges g := by
  unfold dget
  cases hf : g.find? (fun p => p.1 == a) with
  | none => simp
  | some p =>
    have hp : p ∈ g := List.mem_of_find?_eq_some hf
    have : p.2.length ∈ g.map (fun q => q.2.length) := List.mem_map.mpr ⟨p, hp, rfl⟩
    exact List.single_le_sum (by simp) _ this

theorem mem_gkeys_of_find? {g : Graph} {a : String} {p : String × List Edge}
    (h : g.find? (fun q => q.1 == a) = some p) : a ∈ gkeys g := by
  have hm := List.mem_of_find?_eq_some h
  have hk := List.find?_some h
  simp at hk
  exact List.mem_map.mpr ⟨p, hm, hk⟩

/-! ### The Python tuple order used by the heap -/

theorem listLt_irrefl (l : List String) : listLt l l = false := by
  induction l with
  | nil => rfl
  | cons a t ih =>
    unfold listLt
    rw [if_neg (lt_irrefl a), if_neg (lt_irrefl a)]
    exact ih

theorem listLt_asymm : ∀ {l1 l2 : List String}, listLt l1 l2 = true → listLt l2 l1 = false
  | [], [], h => by simp [listLt] at h
  | [], _ :: _, _ => by simp [listLt]
  | _ :: _, [], h => by simp [listLt] at h
  | a :: t1, b :: t2, h => by
    unfold listLt at h ⊢
    by_cases hab : a < b
    · rw [if_neg (asymm hab), if_pos hab]
    · rw [if_neg hab] at h
      by_cases hba : b < a
      · rw [if_pos hba] at h
        simp at h
      · rw [if_neg hba] at h
        rw [if_neg hba, if_neg hab]
        exact listLt_asymm h

theorem listLt_conn : ∀ {l1 l2 : List String},
    listLt l1 l2 = false → listLt l2 l1 = false → l1 = l2
  | [], [], _, _ => rfl
  | [], _ :: _, h, _ => by simp [listLt] at h
  | _ :: _, [], _, h => by simp [listLt] at h
  | a :: t1, b :: t2, h1, h2 => by
    unfold listLt at h1 h2
    by_cases hab : a < b
    · rw [if_pos hab] at h1; simp at h1
    · by_cases hba : b < a
      · rw [if_pos hba] at h2; simp at h2
      · rw [if_neg hab, if_neg hba] at h1
        rw [if_neg hba, if_neg hab] at h2
        have : a = b := le_antisymm (not_lt.mp hba) (not_lt.mp hab)
        rw [this, listLt_conn h1 h2]

theorem listLt_trans : ∀ {l1 l2 l3 : List String},
    listLt l1 l2 = true → listLt l2 l3 = true → listLt l1 l3 = true
  | [], [], _, h1, _ => by simp [listLt] at h1
  | _, _ :: _, [], _, h2 => by simp [listLt] at h2
  | [], _ :: _, _ :: _, _, _ => by simp [listLt]
  | _ :: _, [], _, h1, _ => by simp [listLt] at h1
  | a :: t1, b :: t2, c :: t3, h1, h2 => by
    unfold listLt at h1 h2 ⊢
    by_cases hab : a < b
    · by_cases hbc : b < c
      · rw [if_pos (lt_trans hab hbc)]
      · by_cases hcb : c < b
        · rw [if_neg hbc, if_pos hcb] at h2
          simp at h2
        · have hbc2 : b = c := le_antisymm (not_lt.mp hcb) (not_lt.mp hbc)
          rw [if_pos (hbc2 ▸ hab)]
    · by_cases hba : b < a
      · rw [if_neg hab, if_pos hba] at h1
        simp at h1
      · have hab2 : a = b := le_antisymm (not_lt.mp hba) (not_lt.mp hab)
        subst hab2
        rw [if_neg hab, if_neg hba] at h1
        by_cases hac : a < c
        · rw [if_pos hac]
        · by_cases hca : c < a
          · rw [if_neg hac, if_pos hca] at h2
            simp at h2
          · rw [if_neg hac, if_neg hca] at h2 ⊢
            exact listLt_trans h1 h2

theorem entryLt_true (x y : PqEntry) : entryLt x y = true ↔
    (x.1 < y.1 ∨ (x.1 = y.1 ∧ (x.2.1 < y.2.1 ∨ (x.2.1 = y.2.1 ∧
      (x.2.2.1 < y.2.2.1 ∨ (x.2.2.1 = y.2.2.1 ∧ listLt x.2.2.2 y.2.2.2 = true)))))) := by
  obtain ⟨d1, h1, a1, p1⟩ := x
  obtain ⟨d2, h2, a2, p2⟩ := y
  simp only [entryLt]
  split_ifs with c1 c2 c3 c4 c5 c6
  · simp only [true_iff]
    exact Or.inl c1
  · constructor
    · intro h; simp at h
    · intro h
      exfalso
      rcases h with h | ⟨h, _⟩ <;> omega
  · simp only [true_iff]
    exact Or.inr ⟨by omega, Or.inl c3⟩
  · constructor
    · intro h; simp at h
    · intro h
      exfalso
      rcases h with h | ⟨h, hh | ⟨hh, _⟩⟩ <;> omega
  · simp only [true_iff]
    exact Or.inr ⟨by omega, Or.inr ⟨by omega, Or.inl c5⟩⟩
  · constructor
    · intro h; simp at h
    · intro h
      exfalso
      rcases h with h | ⟨h, hh | ⟨hh, ha | ⟨ha, _⟩⟩⟩
      · omega
      · omega
      · exact absurd ha (asymm c6)
      · rw [ha] at c6; exact absurd c6 (lt_irrefl a2)
  · constructor
    · intro h
      exact Or.inr ⟨by omega, Or.inr ⟨by omega, Or.inr ⟨le_antisymm (not_lt.mp c6) (not_lt.mp c5), h⟩⟩⟩
    · intro h
      rcases h with h | ⟨h, hh | ⟨hh, ha | ⟨ha, hp⟩⟩⟩
      · omega
      · omega
      · exact absurd ha c5
      · exact hp

theorem entryLt_asymm {x y : PqEntry} (h : entryLt x y = true) : entryLt y x = false := by
  rw [Bool.eq_false_iff]
  intro h2
  rw [entryLt_true] at h h2
  rcases h with hd | ⟨hd, hh | ⟨hh, ha | ⟨ha, hp⟩⟩⟩ <;>
    rcases h2 with hd2 | ⟨hd2, hh2 | ⟨hh2, ha2 | ⟨ha2, hp2⟩⟩⟩ <;> try omega
  · exact absurd ha2 (asymm ha)
  · rw [ha2] at ha; exact absurd ha (lt_irrefl _)
  · rw [ha] at ha2; exact absurd ha2 (lt_irrefl _)
  · have := listLt_asymm hp
    rw [hp2] at this
    simp at this

theorem entryLt_trans {x y z : PqEntry} (h1 : entryLt x y = true) (h2 : entryLt y z = true) :
    entryLt x z = true := by
  rw [entryLt_true] at h1 h2 ⊢
  rcases h1 with hd | ⟨hd, h1⟩
  · refine Or.inl ?_
    rcases h2 with hd2 | ⟨hd2, _⟩ <;> omega
  · rcases h2 with hd2 | ⟨hd2, h2⟩
    · exact Or.inl (by omega)
    · refine Or.inr ⟨by omega, ?_⟩
      rcases h1 with hh | ⟨hh, h1⟩
      · refine Or.inl ?_
        rcases h2 with hh2 | ⟨hh2, _⟩ <;> omega
      · rcases h2 with hh2 | ⟨hh2, h2⟩
        · exact Or.inl (by omega)
        · refine Or.inr ⟨by omega, ?_⟩
          rcases h1 with ha | ⟨ha, h1⟩
          · rcases h2 with ha2 | ⟨ha2, _⟩
            · exact Or.inl (lt_trans ha ha2)
            · exact Or.inl (ha2 ▸ ha)
          · rcases h2 with ha2 | ⟨ha2, h2⟩
            · exact Or.inl (ha.symm ▸ ha2)
            · exact Or.inr ⟨ha.trans ha2, listLt_trans h1 h2⟩

theorem entryLt_total (x y : PqEntry) :
    entryLt x y = true ∨ x = y ∨ entryLt y x = true := by
  by_cases h1 : entryLt x y = true
  · exact Or.inl h1
  by_cases h2 : entryLt y x = true
  · exact Or.inr (Or.inr h2)
  refine Or.inr (Or.inl ?_)
  obtain ⟨d1, hh1, a1, p1⟩ := x
  obtain ⟨d2, hh2, a2, p2⟩ := y
  rw [entryLt_true] at h1 h2
  simp only at h1 h2
  have hd12 : ¬d1 < d2 := fun hc => h1 (Or.inl hc)
  have hd21 : ¬d2 < d1 := fun hc => h2 (Or.inl hc)
  have hd : d1 = d2 := by omega
  subst hd
  have hh12 : ¬hh1 < hh2 := fun hc => h1 (Or.inr ⟨rfl, Or.inl hc⟩)
  have hh21 : ¬hh2 < hh1 := fun hc => h2 (Or.inr ⟨rfl, Or.inl hc⟩)
  have hh : hh1 = hh2 := by omega
  subst hh
  have ha12 : ¬a1 < a2 := fun hc => h1 (Or.inr ⟨rfl, Or.inr ⟨rfl, Or.inl hc⟩⟩)
  have ha21 : ¬a2 < a1 := fun hc => h2 (Or.inr ⟨rfl, Or.inr ⟨rfl, Or.inl hc⟩⟩)
  have ha : a1 = a2 := le_antisymm (not_lt.mp ha21) (not_lt.mp ha12)
  subst ha
  have hp12 : ¬listLt p1 p2 = true := fun hc => h1 (Or.inr ⟨rfl, Or.inr ⟨rfl, Or.inr ⟨rfl, hc⟩⟩⟩)
  have hp21 : ¬listLt p2 p1 = true := fun hc => h2 (Or.inr ⟨rfl, Or.inr ⟨rfl, Or.inr ⟨rfl, hc⟩⟩⟩)
  have hp : p1 = p2 := listLt_conn (Bool.eq_false_iff.mpr hp12) (Bool.eq_false_iff.mpr hp21)
  rw [hp]

theorem entryLe_refl (x : PqEntry) : entryLe x x := by
  rw [entryLe]
  cases hx : entryLt x x with
  | false => rfl
  | true =>
    exfalso
    rw [entryLt_true] at hx
    rcases hx with h | ⟨h, hh | ⟨hh, ha | ⟨ha, hp⟩⟩⟩
    · omega
    · omega
    · exact absurd ha (lt_irrefl _)
    · rw [listLt_irrefl] at hp; exact Bool.false_ne_true hp

instance : IsTotal PqEntry entryLe where
  total x y := by
    by_cases h : entryLt y x = true
    · exact Or.inr (entryLt_asymm h)
    · exact Or.inl (Bool.eq_false_iff.mpr h)

instance : IsTrans PqEntry entryLe where
  trans x y z hxy hyz := by
    rw [entryLe] at hxy hyz ⊢
    rw [Bool.eq_false_iff]
    intro hzx
    rcases entryLt_total z y with h | h | h
    · rw [hyz] at h; exact Bool.false_ne_true h
    · rw [h] at hzx; rw [hxy] at hzx; exact Bool.false_ne_true hzx
    · have := entryLt_trans h hzx
      rw [hxy] at this
      exact Bool.false_ne_true this

/-! ### The secondary key (distance, hops) of the priority order -/

/-- Weak order on the `(distance, hops)` pair of a heap tuple. -/
def pairLe (x y : Nat × Nat) : Prop := x.1 < y.1 ∨ (x.1 = y.1 ∧ x.2 ≤ y.2)

/-- Strict order on the `(distance, hops)` pair of a heap tuple. -/
def pairLt (x y : Nat × Nat) : Prop := x.1 < y.1 ∨ (x.1 = y.1 ∧ x.2 < y.2)

theorem pairLe_refl (x : Nat × Nat) : pairLe x x := by unfold pairLe; omega

theorem pairLe_trans {x y z : Nat × Nat} (h1 : pairLe x y) (h2 : pairLe y z) : pairLe x z := by
  unfold pairLe at *; omega

theorem pairLe_pairLt_trans {x y z : Nat × Nat} (h1 : pairLe x y) (h2 : pairLt y z) :
    pairLt x z := by
  unfold pairLe pairLt at *; omega

theorem pairLt_pairLe_trans {x y z : Nat × Nat} (h1 : pairLt x y) (h2 : pairLe y z) :
    pairLt x z := by
  unfold pairLe pairLt at *; omega

theorem pairLe_of_pairLt {x y : Nat × Nat} (h : pairLt x y) : pairLe x y := by
  unfold pairLe pairLt at *; omega

theorem pairLt_asymm {x y : Nat × Nat} (h1 : pairLt x y) (h2 : pairLe y x) : False := by
  unfold pairLe pairLt at *; omega

theorem pairLt_of_not_pairLe {x y : Nat × Nat} (h : ¬pairLe x y) : pairLt y x := by
  unfold pairLe pairLt at *; omega

theorem pairLe_step {x y : Nat × Nat} (w : Nat) (h : pairLe x y) :
    pairLe (x.1 + w, x.2 + 1) (y.1 + w, y.2 + 1) := by
  unfold pairLe at *; omega

theorem pairLt_step (x : Nat × Nat) (w : Nat) : pairLt x (x.1 + w, x.2 + 1) := by
  unfold pairLt; omega

theorem entryLe_pairLe {x y : PqEntry} (h : entryLe x y) : pairLe (x.1, x.2.1) (y.1, y.2.1) := by
  rw [entryLe] at h
  have hd : ¬y.1 < x.1 := fun hc => by
    have ht : entryLt y x = true := (entryLt_true y x).mpr (Or.inl hc)
    rw [h] at ht
    exact Bool.false_ne_true ht
  have hh : y.1 = x.1 → ¬y.2.1 < x.2.1 := fun he hc => by
    have ht : entryLt y x = true := (entryLt_true y x).mpr (Or.inr ⟨he, Or.inl hc⟩)
    rw [h] at ht
    exact Bool.false_ne_true ht
  unfold pairLe
  simp only
  by_cases hd2 : x.1 < y.1
  · exact Or.inl hd2
  · have hde : x.1 = y.1 := by omega
    have := hh hde.symm
    exact Or.inr ⟨hde, by omega⟩

/-! ### Facts about the heap model -/

theorem pushAll_sorted (items : List PqEntry) : ∀ pq : List PqEntry,
    List.Sorted entryLe pq → List.Sorted entryLe (pushAll pq items) := by
  induction items with
  | nil => intro pq h; exact h
  | cons x t ih =>
    intro pq h
    rw [pushAll, List.foldl_cons]
    exact ih _ (h.orderedInsert x pq)

theorem pushAll_perm (items : List PqEntry) : ∀ pq : List PqEntry,
    (pushAll pq items).Perm (pq ++ items) := by
  induction items with
  | nil => intro pq; simp [pushAll]
  | cons x t ih =>
    intro pq
    rw [pushAll, List.foldl_cons]
    have h1 : (pushAll (pq.orderedInsert entryLe x) t).Perm (pq.orderedInsert entryLe x ++ t) :=
      ih _
    have h2 : (pq.orderedInsert entryLe x ++ t).Perm ((x :: pq) ++ t) :=
      (List.perm_orderedInsert entryLe x pq).append_right t
    have h3 : (pq ++ x :: t).Perm (x :: (pq ++ t)) := List.perm_middle
    exact (h1.trans h2).trans h3.symm

theorem mem_pushAll {x : PqEntry} {pq items : List PqEntry} :
    x ∈ pushAll pq items ↔ x ∈ pq ∨ x ∈ items := by
  rw [(pushAll_perm items pq).mem_iff, List.mem_append]

theorem sorted_head_le {x : PqEntry} {l : List PqEntry} (h : List.Sorted entryLe (x :: l)) :
    ∀ y ∈ x :: l, entryLe x y := by
  intro y hy
  rcases List.mem_cons.mp hy with rfl | hy2
  · exact entryLe_refl y
  · exact List.rel_of_sorted_cons h y hy2

/-! ### Paths and their costs -/

theorem pathOK_snoc {g : Graph} {ac : String} {p : List String} {y z : String} {e : Edge}
    (hp : pathOK g ac p) (hy : p.getLast? = some y) (he : e ∈ dget g y)
    (hac : e.aircraft = ac) (hz : e.dest = z) : pathOK g ac (p ++ [z]) := by
  induction p with
  | nil => simp at hy
  | cons a t ih =>
    cases t with
    | nil =>
      simp at hy
      subst hy
      exact ⟨⟨e, he, hac, hz⟩, trivial⟩
    | cons b t2 =>
      obtain ⟨hstep, hrest⟩ := hp
      rw [List.getLast?_cons_cons] at hy
      exact ⟨hstep, ih hrest hy⟩

theorem pathOK_snoc_decomp {g : Graph} {ac : String} {p : List String} {z : String}
    (hp : pathOK g ac (p ++ [z])) (hne : p ≠ []) :
    ∃ y, p.getLast? = some y ∧ pathOK g ac p ∧ ∃ e ∈ dget g y, e.aircraft = ac ∧ e.dest = z := by
  induction p with
  | nil => exact absurd rfl hne
  | cons a t ih =>
    cases t with
    | nil =>
      obtain ⟨hstep, _⟩ := hp
      exact ⟨a, rfl, trivial, hstep⟩
    | cons b t2 =>
      obtain ⟨hstep, hrest⟩ := hp
      obtain ⟨y, hy, hok, hedge⟩ := ih hrest (by simp)
      exact ⟨y, by rw [List.getLast?_cons_cons]; exact hy, ⟨hstep, hok⟩, hedge⟩

theorem costOf_snoc {g : Graph} {ac : String} {p : List String} {c : Nat} {y z : String} {e : Edge}
    (hp : costOf g ac p c) (hy : p.getLast? = some y) (he : e ∈ dget g y)
    (hac : e.aircraft = ac) (hz : e.dest = z) : costOf g ac (p ++ [z]) (c + e.distance) := by
  induction hp with
  | single a =>
    simp at hy
    subst hy
    have : costOf g ac [a, z] (e.distance + 0) := costOf.cons he hac hz (costOf.single z)
    simpa using this
  | cons hm ha hd hrest ih =>
    rw [List.getLast?_cons_cons] at hy
    have := costOf.cons hm ha hd (ih hy)
    rw [← Nat.add_assoc] at this
    exact this

theorem costOf_snoc_decomp {g : Graph} {ac : String} {p : List String} {z : String} {c : Nat}
    (hp : costOf g ac (p ++ [z]) c) (hne : p ≠ []) :
    ∃ y c1 e, p.getLast? = some y ∧ costOf g ac p c1 ∧ e ∈ dget g y ∧ e.aircraft = ac ∧
      e.dest = z ∧ c = c1 + e.distance := by
  induction p generalizing c with
  | nil => exact absurd rfl hne
  | cons a t ih =>
    cases t with
    | nil =>
      rw [List.singleton_append] at hp
      cases hp with
      | cons hm ha hd hrest =>
        cases hrest with
        | single => exact ⟨a, 0, _, rfl, costOf.single a, hm, ha, hd, by omega⟩
    | cons b t2 =>
      rw [List.cons_append, List.cons_append] at hp
      cases hp with
      | cons hm ha hd hrest =>
        rw [← List.cons_append] at hrest
        obtain ⟨y, c1, e, hy, hc1, he, heac, hed, hce⟩ := ih hrest (by simp)
        exact ⟨y, _ + c1, e, by rw [List.getLast?_cons_cons]; exact hy,
          costOf.cons hm ha hd hc1, he, heac, hed, by omega⟩

theorem costOf_ne_nil {g : Graph} {ac : String} {p : List String} {c : Nat}
    (hp : costOf g ac p c) : p ≠ [] := by
  cases hp <;> simp

theorem costOf_pathOK {g : Graph} {ac : String} {p : List String} {c : Nat}
    (hp : costOf g ac p c) : pathOK g ac p := by
  induction hp with
  | single a => trivial
  | cons hm ha hd _ ih => exact ⟨⟨_, hm, ha, hd⟩, ih⟩

theorem pathOK_costOf {g : Graph} {ac : String} {p : List String}
    (hp : pathOK g ac p) (hne : p ≠ []) : ∃ c, costOf g ac p c := by
  induction p with
  | nil => exact absurd rfl hne
  | cons a t ih =>
    cases t with
    | nil => exact ⟨0, costOf.single a⟩
    | cons b t2 =>
      obtain ⟨⟨e, he, hac, hd⟩, hrest⟩ := hp
      obtain ⟨c, hc⟩ := ih hrest (by simp)
      exact ⟨e.distance + c, costOf.cons he hac hd hc⟩

/-! ### BFS: instrumented loop and its invariant -/

/-- The BFS loop instrumented with the path length at which each airport
was expanded; the visited set of `fewest_legs` is the key list of this
association list. -/
def bfsLoopI (endA aircraft : String) :
    Nat → Graph → List BfsEntry → List (String × Nat) → Option (Option (List String) × Graph)
  | 0, _, _, _ => none
  | _ + 1, g, [], _ => some (none, g)
  | fuel + 1, g, (airport, path) :: rest, vis =>
    if airport == endA then some (some path, g) else
    if airport ∈ vis.map Prod.fst then bfsLoopI endA aircraft fuel g rest vis else
    bfsLoopI endA aircraft fuel (touch g airport)
      (rest ++ ((dget g airport).filter (fun e => e.aircraft == aircraft)).map
        (fun e => (e.dest, path ++ [e.dest])))
      ((airport, path.length) :: vis)

theorem bfsLoopI_eq (endA aircraft : String) : ∀ (fuel : Nat) (g : Graph)
    (queue : List BfsEntry) (vis : List (String × Nat)),
    fewestLegsLoop endA aircraft fuel g queue (vis.map Prod.fst) =
      bfsLoopI endA aircraft fuel g queue vis := by
  intro fuel
  induction fuel with
  | zero => intro g q v; rfl
  | succ n ih =>
    intro g q vis
    cases q with
    | nil => rfl
    | cons en rest =>
      obtain ⟨airport, path⟩ := en
      simp only [fewestLegsLoop, bfsLoopI]
      split
      · rfl
      · split
        · exact ih g rest vis
        · exact ih (touch g airport) _ ((airport, path.length) :: vis)

theorem pairwise_of_all {α : Type} {R : α → α → Prop} {l : List α}
    (h : ∀ x ∈ l, ∀ y ∈ l, R x y) : l.Pairwise R := by
  induction l with
  | nil => exact List.Pairwise.nil
  | cons a t ih =>
    refine List.Pairwise.cons ?_ (ih ?_)
    · intro y hy
      exact h a (by simp) y (by simp [hy])
    · intro x hx y hy
      exact h x (by simp [hx]) y (by simp [hy])

theorem head?_append_left {α : Type} {l : List α} {a : α} (h : l.head? = some a)
    (l2 : List α) : (l ++ l2).head? = some a := by
  cases l with
  | nil => simp at h
  | cons x t => simpa using h

/-- Loop invariant of the instrumented BFS: the queue and the recorded
expansion depths together describe a consistent breadth-first state. -/
structure BfsInv (g0 : Graph) (s endA ac : String) (g : Graph) (queue : List BfsEntry)
    (vis : List (String × Nat)) : Prop where
  ext : TouchExt g0 g
  wf : ∀ en ∈ queue, en.2.head? = some s ∧ en.2.getLast? = some en.1 ∧ pathOK g0 ac en.2
  mono : queue.Pairwise (fun x y => x.2.length ≤ y.2.length)
  spread : ∀ f ∈ queue.head?, ∀ en ∈ queue, en.2.length ≤ f.2.length + 1
  visLe : ∀ v ∈ vis, ∀ en ∈ queue, v.2 ≤ en.2.length
  cover : ∀ v ∈ vis, ∀ e ∈ dget g0 v.1, e.aircraft = ac →
    (∃ d2, (e.dest, d2) ∈ vis ∧ d2 ≤ v.2 + 1) ∨
    (∃ en ∈ queue, en.1 = e.dest ∧ en.2.length ≤ v.2 + 1)
  start : (s, 1) ∈ vis ∨ (queue = [(s, [s])] ∧ vis = [])
  endF : ∀ d, (endA, d) ∉ vis

theorem bfsInv_skip {g0 : Graph} {s endA ac : String} {g : Graph} {a : String}
    {p : List String} {rest : List BfsEntry} {vis : List (String × Nat)}
    (inv : BfsInv g0 s endA ac g ((a, p) :: rest) vis)
    (ha : a ∈ vis.map Prod.fst) : BfsInv g0 s endA ac g rest vis := by
  obtain ⟨da, hda, hda1⟩ : ∃ da, (a, da) ∈ vis ∧ da ≤ p.length := by
    obtain ⟨v, hv, hv1⟩ := List.mem_map.mp ha
    refine ⟨v.2, ?_, ?_⟩
    · rw [← hv1]; exact hv
    · exact inv.visLe v hv (a, p) (by simp)
  refine ⟨inv.ext, ?_, inv.mono.of_cons, ?_, ?_, ?_, ?_, inv.endF⟩
  · intro en hen
    exact inv.wf en (by simp [hen])
  · intro f hf en hen
    have h1 : en.2.length ≤ p.length + 1 :=
      inv.spread (a, p) rfl en (by simp [hen])
    have h2 : p.length ≤ f.2.length :=
      List.rel_of_pairwise_cons inv.mono (List.mem_of_mem_head? hf)
    omega
  · intro v hv en hen
    exact inv.visLe v hv en (by simp [hen])
  · intro v hv e he hac
    rcases inv.cover v hv e he hac with ⟨d2, hd2, hb⟩ | ⟨en, hen, he1, hb⟩
    · exact Or.inl ⟨d2, hd2, hb⟩
    · rcases List.mem_cons.mp hen with rfl | hen2
      · refine Or.inl ⟨da, ?_, ?_⟩
        · rw [← he1]; exact hda
        · simp only at hb
          omega
      · exact Or.inr ⟨en, hen2, he1, hb⟩
  · rcases inv.start with h | ⟨hq, hv⟩
    · exact Or.inl h
    · subst hv
      simp at ha

theorem bfsInv_expand {g0 : Graph} {s endA ac : String} {g : Graph} {a : String}
    {p : List String} {rest : List BfsEntry} {vis : List (String × Nat)}
    (inv : BfsInv g0 s endA ac g ((a, p) :: rest) vis)
    (ha : a ∉ vis.map Prod.fst) (hne : a ≠ endA) :
    BfsInv g0 s endA ac (touch g a)
      (rest ++ ((dget g a).filter (fun e => e.aircraft == ac)).map
        (fun e => (e.dest, p ++ [e.dest])))
      ((a, p.length) :: vis) := by
  have hdg : dget g a = dget g0 a := inv.ext.dget_eq a
  obtain ⟨hhead, hlast, hok⟩ := inv.wf (a, p) (by simp)
  simp only at hhead hlast hok
  set pushes := ((dget g a).filter (fun e => e.aircraft == ac)).map
    (fun e => (e.dest, p ++ [e.dest])) with hpushes
  have hpush_mem : ∀ en ∈ pushes, ∃ e, e ∈ dget g0 a ∧ e.aircraft = ac ∧
      en = (e.dest, p ++ [e.dest]) := by
    intro en hen
    rw [hpushes] at hen
    obtain ⟨e, he, rfl⟩ := List.mem_map.mp hen
    have := List.mem_filter.mp he
    exact ⟨e, by rw [← hdg]; exact this.1, by simpa using this.2, rfl⟩
  have hpush_len : ∀ en ∈ pushes, en.2.length = p.length + 1 := by
    intro en hen
    obtain ⟨e, _, _, rfl⟩ := hpush_mem en hen
    simp
  have hall_le : ∀ en ∈ rest ++ pushes, en.2.length ≤ p.length + 1 := by
    intro en hen
    rcases List.mem_append.mp hen with h | h
    · exact inv.spread (a, p) rfl en (by simp [h])
    · exact (hpush_len en h).le
  have hall_ge : ∀ en ∈ rest ++ pushes, p.length ≤ en.2.length := by
    intro en hen
    rcases List.mem_append.mp hen with h | h
    · exact List.rel_of_pairwise_cons inv.mono h
    · rw [hpush_len en h]; omega
  refine ⟨inv.ext.trans (touchExt_touch g a), ?_, ?_, ?_, ?_, ?_, ?_, ?_⟩
  · intro en hen
    rcases List.mem_append.mp hen with h | h
    · exact inv.wf en (by simp [h])
    · obtain ⟨e, he, hac, rfl⟩ := hpush_mem en h
      refine ⟨head?_append_left hhead _, by simp, ?_⟩
      exact pathOK_snoc hok hlast he hac rfl
  · rw [List.pairwise_append]
    refine ⟨inv.mono.of_cons, ?_, ?_⟩
    · refine pairwise_of_all ?_
      intro x hx y hy
      rw [hpush_len x hx, hpush_len y hy]
    · intro x hx y hy
      have h1 : x.2.length ≤ p.length + 1 := inv.spread (a, p) rfl x (by simp [hx])
      rw [hpush_len y hy]
      omega
  · intro f hf en hen
    have h1 : en.2.length ≤ p.length + 1 := hall_le en hen
    have h2 : p.length ≤ f.2.length := hall_ge f (List.mem_of_mem_head? hf)
    omega
  · intro v hv en hen
    rcases List.mem_cons.mp hv with rfl | hv2
    · exact hall_ge en hen
    · have h1 : v.2 ≤ p.length := inv.visLe v hv2 (a, p) (by simp)
      have h2 := hall_ge en hen
      omega
  · intro v hv e he hac
    rcases List.mem_cons.mp hv with rfl | hv2
    · simp only at he
      refine Or.inr ⟨(e.dest, p ++ [e.dest]), ?_, rfl, by simp⟩
      rw [List.mem_append]
      refine Or.inr ?_
      rw [hpushes]
      refine List.mem_map.mpr ⟨e, ?_, rfl⟩
      rw [List.mem_filter, hdg]
      exact ⟨he, by simp [hac]⟩
    · rcases inv.cover v hv2 e he hac with ⟨d2, hd2, hb⟩ | ⟨en, hen, he1, hb⟩
      · exact Or.inl ⟨d2, by simp [hd2], hb⟩
      · rcases List.mem_cons.mp hen with rfl | hen2
        · refine Or.inl ⟨p.length, by simp [← he1], ?_⟩
          simp only at hb
          omega
        · exact Or.inr ⟨en, by simp [hen2], he1, hb⟩
  · rcases inv.start with h | ⟨hq, hv⟩
    · exact Or.inl (by simp [h])
    · subst hv
      have h1 : a = s ∧ p = [s] ∧ rest = [] := by
        have := List.cons.injEq (a, p) rest (s, [s]) [] ▸ hq
        simp at this ⊢
        exact ⟨this.1.1, this.1.2, this.2⟩
      obtain ⟨rfl, rfl, rfl⟩ := h1
      exact Or.inl (by simp)
  · intro d hd
    rcases List.mem_cons.mp hd with hcon | hmem
    · have : endA = a := by
        have := congrArg Prod.fst hcon
        simpa using this
      exact hne this.symm
    · exact inv.endF d hmem

/-- Walking any valid path whose hop count stays below the minimum queue
entry length must end in an already-expanded airport. -/
theorem bfs_chain {g0 : Graph} {s endA ac : String} {g : Graph} {queue : List BfsEntry}
    {vis : List (String × Nat)} (inv : BfsInv g0 s endA ac g queue vis)
    (L : Nat) (hmin : ∀ en ∈ queue, L ≤ en.2.length) :
    ∀ p, pathOK g0 ac p → p.head? = some s → ∀ z, p.getLast? = some z →
      p.length < L → ∃ d, (z, d) ∈ vis ∧ d ≤ p.length := by
  intro p
  induction p using List.reverseRecOn with
  | nil => intro _ h; simp at h
  | append_singleton q z2 ih =>
    intro hok hhead z hlast hlen
    rw [List.getLast?_concat] at hlast
    have hz : z = z2 := (Option.some.inj hlast).symm
    subst hz
    simp only [List.length_append, List.length_cons, List.length_nil] at hlen ⊢
    cases q with
    | nil =>
      simp at hhead
      subst hhead
      rcases inv.start with h | ⟨hq, _⟩
      · exact ⟨1, h, by simp⟩
      · subst hq
        have := hmin (z, [z]) (by simp)
        simp only [List.length_nil, List.length_cons] at this hlen
        omega
    | cons w q2 =>
      obtain ⟨y, hy, hokq, e, he, hac, hdest⟩ := pathOK_snoc_decomp hok (by simp)
      have hheadq : (w :: q2).head? = some s := by simpa using hhead
      simp only [List.length_cons] at hlen
      have hlenq : (w :: q2).length < L := by
        simp only [List.length_cons]
        omega
      obtain ⟨d, hd, hdle⟩ := ih hokq hheadq y hy hlenq
      simp only [List.length_cons] at hdle
      rcases inv.cover (y, d) hd e he hac with ⟨d2, hd2, hb⟩ | ⟨en, hen, _, hb⟩
      · refine ⟨d2, by rw [← hdest]; exact hd2, ?_⟩
        simp only [List.length_cons]
        simp only at hb
        omega
      · exfalso
        have h1 := hmin en hen
        simp only at hb
        omega

theorem bfsMeasure_skip_lt {g : Graph} {a : String} {p : List String} {rest : List BfsEntry}
    {visited : List String} :
    bfsMeasure g rest visited < bfsMeasure g ((a, p) :: rest) visited := by
  unfold bfsMeasure
  have hsub : (gkeys g ++ gdests g ++ rest.map Prod.fst).toFinset \ visited.toFinset ⊆
      (gkeys g ++ gdests g ++ ((a, p) :: rest).map Prod.fst).toFinset \ visited.toFinset := by
    refine Finset.sdiff_subset_sdiff ?_ (Finset.Subset.refl _)
    intro x hx
    rw [List.mem_toFinset] at hx ⊢
    simp only [List.mem_append] at hx ⊢
    rcases hx with h | h
    · exact Or.inl h
    · refine Or.inr ?_
      simp only [List.map_cons, List.mem_cons]
      exact Or.inr h
  have h1 := Finset.card_le_card hsub
  have h2 := Nat.mul_le_mul_left (totalEdges g + 1) h1
  simp only [List.length_cons]
  omega

theorem bfsMeasure_expand_lt {g : Graph} {a : String} {p : List String}
    {rest pushes : List BfsEntry} {visited : List String} (ha : a ∉ visited)
    (hdest : ∀ en ∈ pushes, en.1 ∈ gdests g)
    (hlen : pushes.length ≤ totalEdges g) :
    bfsMeasure (touch g a) (rest ++ pushes) (a :: visited) <
      bfsMeasure g ((a, p) :: rest) visited := by
  unfold bfsMeasure
  rw [totalEdges_touch]
  set SN := (gkeys (touch g a) ++ gdests (touch g a) ++
    (rest ++ pushes).map Prod.fst).toFinset \ (a :: visited).toFinset with hSN
  set SO := (gkeys g ++ gdests g ++
    ((a, p) :: rest).map Prod.fst).toFinset \ visited.toFinset with hSO
  have hsub : SN ⊆ SO := by
    rw [hSN, hSO]
    intro x hx
    rw [Finset.mem_sdiff] at hx ⊢
    obtain ⟨hx1, hx2⟩ := hx
    rw [List.mem_toFinset] at hx1
    have hxa : x ≠ a := by
      intro hq
      apply hx2
      rw [List.mem_toFinset, hq]
      simp
    have hxv : x ∉ visited := by
      intro hq
      apply hx2
      rw [List.mem_toFinset]
      simp [hq]
    refine ⟨?_, by rw [List.mem_toFinset]; exact hxv⟩
    rw [List.mem_toFinset]
    rw [gdests_touch] at hx1
    simp only [List.mem_append] at hx1 ⊢
    rcases hx1 with (hk | hd) | hq
    · rcases gkeys_touch g a x hk with h | rfl
      · exact Or.inl (Or.inl h)
      · exact absurd rfl hxa
    · exact Or.inl (Or.inr hd)
    · rw [List.map_append, List.mem_append] at hq
      rcases hq with h | h
      · refine Or.inr ?_
        simp only [List.map_cons, List.mem_cons]
        exact Or.inr h
      · obtain ⟨en, hen, rfl⟩ := List.mem_map.mp h
        exact Or.inl (Or.inr (hdest en hen))
  have hamem : a ∈ SO := by
    rw [hSO, Finset.mem_sdiff, List.mem_toFinset, List.mem_toFinset]
    exact ⟨by simp, ha⟩
  have hanot : a ∉ SN := by
    rw [hSN, Finset.mem_sdiff]
    rintro ⟨_, h2⟩
    apply h2
    rw [List.mem_toFinset]
    simp
  have hlt : SN.card < SO.card :=
    Finset.card_lt_card ((Finset.ssubset_iff_of_subset hsub).mpr ⟨a, hamem, hanot⟩)
  have h1 : (totalEdges g + 1) * SN.card + (totalEdges g + 1) ≤ (totalEdges g + 1) * SO.card := by
    have h2 := Nat.mul_le_mul_left (totalEdges g + 1) (Nat.succ_le_of_lt hlt)
    rw [Nat.mul_succ] at h2
    exact h2
  have h3 : (rest ++ pushes).length ≤ rest.length + totalEdges g := by
    rw [List.length_append]
    omega
  simp only [List.length_cons]
  omega

/-- Master lemma for the BFS loop: with enough fuel, the loop completes,
only extends the graph by fresh empty keys, and its answer is a valid,
hop-minimal path (or correctly reports that no path exists). -/
theorem bfs_master (g0 : Graph) (s endA ac : String) :
    ∀ (fuel : Nat) (g : Graph) (queue : List BfsEntry) (vis : List (String × Nat)),
    BfsInv g0 s endA ac g queue vis →
    bfsMeasure g queue (vis.map Prod.fst) < fuel →
    ∃ r g2, bfsLoopI endA ac fuel g queue vis = some (r, g2) ∧ TouchExt g0 g2 ∧
      (∀ p, r = some p → p.head? = some s ∧ p.getLast? = some endA ∧ pathOK g0 ac p ∧
        ∀ q, pathOK g0 ac q → q.head? = some s → q.getLast? = some endA →
          p.length ≤ q.length) ∧
      (r = none → ∀ q, pathOK g0 ac q → q.head? = some s → q.getLast? = some endA → False)
  | 0, g, queue, vis => by
    intro _ hm
    exact absurd hm (Nat.not_lt_zero _)
  | fuel + 1, g, [], vis => by
    intro inv _
    refine ⟨none, g, rfl, inv.ext, by intro p hp; simp at hp, ?_⟩
    intro _ q hok hh hl
    obtain ⟨d, hd, _⟩ := bfs_chain inv (q.length + 1)
      (by intro en hen; simp at hen) q hok hh endA hl (by omega)
    exact inv.endF d hd
  | fuel + 1, g, (a, p) :: rest, vis => by
    intro inv hm
    simp only [bfsLoopI]
    by_cases hend : a == endA
    · rw [if_pos hend]
      have haend : a = endA := by simpa using hend
      refine ⟨some p, g, rfl, inv.ext, ?_, by intro h; simp at h⟩
      intro p2 hp2
      obtain rfl : p = p2 := Option.some.inj hp2
      obtain ⟨hh, hl, hok⟩ := inv.wf (a, p) (by simp)
      simp only at hh hl hok
      refine ⟨hh, by rw [← haend]; exact hl, hok, ?_⟩
      intro q hokq hhq hlq
      by_contra hcon
      push_neg at hcon
      have hmin : ∀ en ∈ (a, p) :: rest, p.length ≤ en.2.length := by
        intro en hen
        rcases List.mem_cons.mp hen with rfl | h2
        · exact Nat.le_refl _
        · exact List.rel_of_pairwise_cons inv.mono h2
      obtain ⟨d, hd, _⟩ := bfs_chain inv p.length hmin q hokq hhq endA hlq hcon
      exact inv.endF d (haend ▸ hd)
    · rw [if_neg hend]
      by_cases hvis : a ∈ vis.map Prod.fst
      · rw [if_pos hvis]
        have hlt := @bfsMeasure_skip_lt g a p rest (vis.map Prod.fst)
        exact bfs_master g0 s endA ac fuel g rest vis (bfsInv_skip inv hvis) (by omega)
      · rw [if_neg hvis]
        have hane : a ≠ endA := by simpa using hend
        have hinv2 := bfsInv_expand inv hvis hane
        have hdest : ∀ en ∈ ((dget g a).filter (fun e => e.aircraft == ac)).map
            (fun e => (e.dest, p ++ [e.dest])), en.1 ∈ gdests g := by
          intro en hen
          obtain ⟨e, he, rfl⟩ := List.mem_map.mp hen
          exact dest_mem_gdests (List.mem_filter.mp he).1
        have hplen : (((dget g a).filter (fun e => e.aircraft == ac)).map
            (fun e => (e.dest, p ++ [e.dest]))).length ≤ totalEdges g := by
          rw [List.length_map]
          exact Nat.le_trans (List.length_filter_le _ _) (dget_length_le g a)
        have hlt := @bfsMeasure_expand_lt g a p rest _ (vis.map Prod.fst) hvis hdest hplen
        have hres := bfs_master g0 s endA ac fuel (touch g a)
          (rest ++ ((dget g a).filter (fun e => e.aircraft == ac)).map
            (fun e => (e.dest, p ++ [e.dest])))
          ((a, p.length) :: vis) hinv2 (by simp only [List.map_cons] at *; omega)
        exact hres

theorem bfsInv_init (g : Graph) (s endA ac : String) :
    BfsInv g s endA ac g [(s, [s])] [] := by
  refine ⟨touchExt_refl g, ?_, ?_, ?_, ?_, ?_, Or.inr ⟨rfl, rfl⟩, ?_⟩
  · intro en hen
    simp at hen
    subst hen
    exact ⟨rfl, rfl, trivial⟩
  · simp
  · intro f hf en hen
    simp at hf hen
    subst hf
    subst hen
    simp
  · intro v hv
    simp at hv
  · intro v hv
    simp at hv
  · intro d hd
    simp at hd

/-- Every `fewest_legs` run completes, only appends fresh empty keys to
the graph, and returns a hop-minimal valid path or a correct no-route
answer. -/
theorem fewest_legs_run_spec (g : Graph) (s endA ac : String) :
    ∃ r g2, fewest_legs_run g s endA ac = some (r, g2) ∧ TouchExt g g2 ∧
      (∀ p, r = some p → p.head? = some s ∧ p.getLast? = some endA ∧ pathOK g ac p ∧
        ∀ q, pathOK g ac q → q.head? = some s → q.getLast? = some endA →
          p.length ≤ q.length) ∧
      (r = none → ∀ q, pathOK g ac q → q.head? = some s → q.getLast? = some endA → False) := by
  have heq := bfsLoopI_eq endA ac (bfsFuel g s) g [(s, [s])] []
  simp only [List.map_nil] at heq
  have h := bfs_master g s endA ac (bfsFuel g s) g [(s, [s])] [] (bfsInv_init g s endA ac)
    (by simp only [List.map_nil, bfsFuel]; omega)
  rw [fewest_legs_run, heq]
  exact h

/-! ### The visited dictionary of least_distance -/

theorem vget_some_mem {m : VMap} {a : String} {b : Nat × Nat} (h : vget m a = some b) :
    (a, b) ∈ m := by
  unfold vget at h
  cases hf : m.find? (fun p => p.1 == a) with
  | none => rw [hf] at h; simp at h
  | some pp =>
    rw [hf] at h
    have hm := List.mem_of_find?_eq_some hf
    have hk := List.find?_some hf
    simp at hk h
    have : (a, b) = pp := by
      rw [← hk, ← h]
    rw [this]
    exact hm

theorem vget_none_not_mem {m : VMap} {a : String} (h : vget m a = none) :
    ∀ b, (a, b) ∉ m := by
  intro b hmem
  unfold vget at h
  cases hf : m.find? (fun p => p.1 == a) with
  | some pp => rw [hf] at h; simp at h
  | none =>
    rw [List.find?_eq_none] at hf
    exact hf (a, b) hmem (by simp)

theorem mem_vget {m : VMap} (knd : m.Pairwise (fun x y => x.1 ≠ y.1)) {a : String}
    {b : Nat × Nat} (h : (a, b) ∈ m) : vget m a = some b := by
  induction m with
  | nil => simp at h
  | cons hd tl ih =>
    rcases List.mem_cons.mp h with rfl | htl
    · unfold vget
      simp
    · have hne : hd.1 ≠ a := by
        have := List.rel_of_pairwise_cons knd htl
        simpa using this
      unfold vget
      rw [List.find?_cons_of_neg _ (by simpa using hne)]
      exact ih knd.of_cons htl

theorem vset_knd {m : VMap} (knd : m.Pairwise (fun x y => x.1 ≠ y.1)) (a : String)
    (v : Nat × Nat) : (vset m a v).Pairwise (fun x y => x.1 ≠ y.1) := by
  unfold vset
  refine List.Pairwise.cons ?_ (knd.filter _)
  intro y hy
  have := (List.mem_filter.mp hy).2
  simp at this
  exact fun hq => this hq.symm

theorem vset_keys_mem {m : VMap} {a x : String} {v : Nat × Nat} :
    x ∈ (vset m a v).map Prod.fst ↔ x = a ∨ x ∈ m.map Prod.fst := by
  unfold vset
  simp only [List.map_cons, List.mem_cons]
  constructor
  · rintro (rfl | hx)
    · exact Or.inl rfl
    · obtain ⟨pp, hp, rfl⟩ := List.mem_map.mp hx
      exact Or.inr (List.mem_map.mpr ⟨pp, (List.mem_filter.mp hp).1, rfl⟩)
  · rintro (rfl | hx)
    · exact Or.inl rfl
    · by_cases hxa : x = a
      · exact Or.inl hxa
      · right
        obtain ⟨pp, hp, rfl⟩ := List.mem_map.mp hx
        refine List.mem_map.mpr ⟨pp, List.mem_filter.mpr ⟨hp, ?_⟩, rfl⟩
        simpa using hxa

theorem mem_vset_self {m : VMap} {a : String} {v : Nat × Nat} : (a, v) ∈ vset m a v := by
  unfold vset
  simp

theorem mem_vset_of_ne {m : VMap} {a : String} {v : Nat × Nat} {pp : String × Nat × Nat}
    (h : pp ∈ m) (hne : pp.1 ≠ a) : pp ∈ vset m a v := by
  unfold vset
  simp only [List.mem_cons]
  exact Or.inr (List.mem_filter.mpr ⟨h, by simpa using hne⟩)

theorem mem_of_mem_vset {m : VMap} {a : String} {v : Nat × Nat} {pp : String × Nat × Nat}
    (h : pp ∈ vset m a v) : pp = (a, v) ∨ pp ∈ m := by
  unfold vset at h
  rcases List.mem_cons.mp h with h2 | h2
  · exact Or.inl h2
  · exact Or.inr (List.mem_filter.mp h2).1

/-! ### least_distance: loop invariant -/

/-- Loop invariant of `least_distance`: the sorted frontier and the
best-known `(distance, hops)` map describe a consistent Dijkstra state. -/
structure LdInv (g0 : Graph) (s endA ac : String) (g : Graph) (pq : List PqEntry)
    (vis : VMap) : Prop where
  ext : TouchExt g0 g
  srt : List.Sorted entryLe pq
  wf : ∀ en ∈ pq, en.2.2.2.head? = some s ∧ en.2.2.2.getLast? = some en.2.2.1 ∧
    costOf g0 ac en.2.2.2 en.1 ∧ en.2.2.2.length = en.2.1 + 1
  visLe : ∀ v ∈ vis, ∀ en ∈ pq, pairLe v.2 (en.1, en.2.1)
  cover : ∀ v ∈ vis, ∀ e ∈ dget g0 v.1, e.aircraft = ac →
    (∃ b2, (e.dest, b2) ∈ vis ∧ pairLe b2 (v.2.1 + e.distance, v.2.2 + 1)) ∨
    (∃ en ∈ pq, en.2.2.1 = e.dest ∧ pairLe (en.1, en.2.1) (v.2.1 + e.distance, v.2.2 + 1))
  start : (s, 0, 0) ∈ vis ∨ (pq = [(0, 0, s, [s])] ∧ vis = [])
  endF : ∀ b, (endA, b) ∉ vis
  knd : vis.Pairwise (fun x y => x.1 ≠ y.1)

theorem ldInv_skip {g0 : Graph} {s endA ac : String} {g : Graph} {d h : Nat} {a : String}
    {p : List String} {rest : List PqEntry} {vis : VMap}
    (inv : LdInv g0 s endA ac g ((d, h, a, p) :: rest) vis)
    {bd bh : Nat} (hbd : vget vis a = some (bd, bh)) (hle : pairLe (bd, bh) (d, h)) :
    LdInv g0 s endA ac g rest vis := by
  refine ⟨inv.ext, inv.srt.of_cons, ?_, ?_, ?_, ?_, inv.endF, inv.knd⟩
  · intro en hen
    exact inv.wf en (by simp [hen])
  · intro v hv en hen
    exact inv.visLe v hv en (by simp [hen])
  · intro v hv e he hac
    rcases inv.cover v hv e he hac with ⟨b2, hb2, hb⟩ | ⟨en, hen, hair, hb⟩
    · exact Or.inl ⟨b2, hb2, hb⟩
    · rcases List.mem_cons.mp hen with rfl | hen2
      · simp only at hair hb
        refine Or.inl ⟨(bd, bh), ?_, pairLe_trans hle hb⟩
        rw [← hair]
        exact vget_some_mem hbd
      · exact Or.inr ⟨en, hen2, hair, hb⟩
  · rcases inv.start with hs | ⟨hq, hv⟩
    · exact Or.inl hs
    · subst hv
      rw [vget] at hbd
      simp at hbd

theorem ldInv_expand {g0 : Graph} {s endA ac : String} {g : Graph} {d h : Nat} {a : String}
    {p : List String} {rest : List PqEntry} {vis : VMap}
    (inv : LdInv g0 s endA ac g ((d, h, a, p) :: rest) vis)
    (ha : ∀ bd bh, vget vis a = some (bd, bh) → pairLt (d, h) (bd, bh))
    (hne : a ≠ endA) :
    LdInv g0 s endA ac (touch g a)
      (pushAll rest (((dget g a).filter (fun e => e.aircraft == ac)).map
        (fun e => (d + e.distance, h + 1, e.dest, p ++ [e.dest]))))
      (vset vis a (d, h)) := by
  have hdg : dget g a = dget g0 a := inv.ext.dget_eq a
  obtain ⟨hhead, hlast, hcost, hlenp⟩ := inv.wf (d, h, a, p) (by simp)
  simp only at hhead hlast hcost hlenp
  have hmin : ∀ en ∈ (d, h, a, p) :: rest, pairLe (d, h) (en.1, en.2.1) := by
    intro en hen
    exact entryLe_pairLe (sorted_head_le inv.srt en hen)
  have hapair : ∀ b2, (a, b2) ∈ vis → pairLt (d, h) b2 := by
    intro b2 hb2
    exact ha b2.1 b2.2 (by rw [mem_vget inv.knd hb2])
  set pushes := ((dget g a).filter (fun e => e.aircraft == ac)).map
    (fun e => (d + e.distance, h + 1, e.dest, p ++ [e.dest])) with hpushes
  have hpush_mem : ∀ en ∈ pushes, ∃ e, e ∈ dget g0 a ∧ e.aircraft = ac ∧
      en = (d + e.distance, h + 1, e.dest, p ++ [e.dest]) := by
    intro en hen
    rw [hpushes] at hen
    obtain ⟨e, he, rfl⟩ := List.mem_map.mp hen
    have := List.mem_filter.mp he
    exact ⟨e, by rw [← hdg]; exact this.1, by simpa using this.2, rfl⟩
  refine ⟨inv.ext.trans (touchExt_touch g a), pushAll_sorted pushes rest inv.srt.of_cons,
    ?_, ?_, ?_, ?_, ?_, vset_knd inv.knd a (d, h)⟩
  · intro en hen
    rcases mem_pushAll.mp hen with h2 | h2
    · exact inv.wf en (by simp [h2])
    · obtain ⟨e, he, hac, rfl⟩ := hpush_mem en h2
      refine ⟨head?_append_left hhead _, by simp, ?_, ?_⟩
      · exact costOf_snoc hcost hlast he hac rfl
      · simp only [List.length_append, List.length_cons, List.length_nil]
        omega
  · intro v hv en hen
    rcases mem_of_mem_vset hv with rfl | hv2
    · simp only
      rcases mem_pushAll.mp hen with h2 | h2
      · exact hmin en (by simp [h2])
      · obtain ⟨e, _, _, rfl⟩ := hpush_mem en h2
        simp only
        unfold pairLe
        omega
    · rcases mem_pushAll.mp hen with h2 | h2
      · exact inv.visLe v hv2 en (by simp [h2])
      · obtain ⟨e, _, _, rfl⟩ := hpush_mem en h2
        have h3 : pairLe v.2 (d, h) := inv.visLe v hv2 (d, h, a, p) (by simp)
        simp only
        unfold pairLe at h3 ⊢
        omega
  · intro v hv e he hac
    rcases mem_of_mem_vset hv with rfl | hv2
    · simp only at he ⊢
      refine Or.inr ⟨(d + e.distance, h + 1, e.dest, p ++ [e.dest]), ?_, rfl, pairLe_refl _⟩
      refine mem_pushAll.mpr (Or.inr ?_)
      rw [hpushes]
      refine List.mem_map.mpr ⟨e, ?_, rfl⟩
      rw [List.mem_filter, hdg]
      exact ⟨he, by simp [hac]⟩
    · rcases inv.cover v hv2 e he hac with ⟨b2, hb2, hb⟩ | ⟨en, hen, hair, hb⟩
      · by_cases hda : e.dest = a
        · subst hda
          have h4 := hapair b2 hb2
          refine Or.inl ⟨(d, h), mem_vset_self, ?_⟩
          exact pairLe_trans (pairLe_of_pairLt h4) hb
        · exact Or.inl ⟨b2, mem_vset_of_ne hb2 hda, hb⟩
      · rcases List.mem_cons.mp hen with rfl | hen2
        · simp only at hair hb
          refine Or.inl ⟨(d, h), ?_, hb⟩
          rw [← hair]
          exact mem_vset_self
        · exact Or.inr ⟨en, mem_pushAll.mpr (Or.inl hen2), hair, hb⟩
  · rcases inv.start with hs | ⟨hq, hv⟩
    · by_cases has : a = s
      · subst has
        have h4 := hapair (0, 0) hs
        unfold pairLt at h4
        omega
      · exact Or.inl (mem_vset_of_ne hs (by simpa using fun q => has q.symm))
    · have h1 : d = 0 ∧ h = 0 ∧ a = s ∧ p = [s] ∧ rest = [] := by
        have h2 := hq
        rw [List.cons.injEq] at h2
        obtain ⟨h3, h4⟩ := h2
        rw [Prod.ext_iff] at h3
        obtain ⟨h5, h6⟩ := h3
        rw [Prod.ext_iff] at h6
        obtain ⟨h7, h8⟩ := h6
        rw [Prod.ext_iff] at h8
        obtain ⟨h9, h10⟩ := h8
        exact ⟨h5, h7, h9, h10, h4⟩
      obtain ⟨rfl, rfl, rfl, rfl, rfl⟩ := h1
      exact Or.inl mem_vset_self
  · intro b hb
    rcases mem_of_mem_vset hb with hcon | h2
    · have : endA = a := by
        have := congrArg Prod.fst hcon
        simpa using this
      exact hne this.symm
    · exact inv.endF b h2

/-- Walking any valid costed path whose `(cost, hops)` key stays strictly
below the minimum of the frontier must end in a finalized airport whose
recorded best pair is at least as good. -/
theorem ld_chain {g0 : Graph} {s endA ac : String} {g : Graph} {pq : List PqEntry}
    {vis : VMap} (inv : LdInv g0 s endA ac g pq vis)
    (D H : Nat) (hmin : ∀ en ∈ pq, pairLe (D, H) (en.1, en.2.1)) :
    ∀ p c, costOf g0 ac p c → p.head? = some s → ∀ z, p.getLast? = some z →
      pairLt (c, p.length - 1) (D, H) →
      ∃ b, (z, b) ∈ vis ∧ pairLe b (c, p.length - 1) := by
  intro p
  induction p using List.reverseRecOn with
  | nil => intro c _ hh; simp at hh
  | append_singleton q z2 ih =>
    intro c hcost hhead z hlast hlt
    rw [List.getLast?_concat] at hlast
    have hz : z = z2 := (Option.some.inj hlast).symm
    subst hz
    cases q with
    | nil =>
      have hc0 : c = 0 := by cases hcost; rfl
      subst hc0
      simp at hhead
      subst hhead
      simp only [List.nil_append, List.length_cons, List.length_nil] at hlt ⊢
      rcases inv.start with hs | ⟨hq, _⟩
      · exact ⟨(0, 0), hs, pairLe_refl _⟩
      · exfalso
        have h1 := hmin (0, 0, z, [z]) (by rw [hq]; simp)
        simp only at h1
        exact pairLt_asymm hlt h1
    | cons w q2 =>
      obtain ⟨y, c1, e, hy, hc1, he, heac, hed, hce⟩ := costOf_snoc_decomp hcost (by simp)
      subst hce
      have hheadq : (w :: q2).head? = some s := by simpa using hhead
      have hlen1 : ((w :: q2) ++ [z]).length - 1 = (w :: q2).length := by
        simp
      rw [hlen1] at hlt ⊢
      have hltq : pairLt (c1, (w :: q2).length - 1) (D, H) := by
        refine pairLe_pairLt_trans ?_ hlt
        unfold pairLe
        simp only [List.length_cons]
        omega
      obtain ⟨b, hbmem, hble⟩ := ih c1 hc1 hheadq y hy hltq
      simp only [List.length_cons] at hble hlt ⊢
      rcases inv.cover (y, b) hbmem e he heac with ⟨b2, hb2, hb⟩ | ⟨en, hen, _, hb⟩
      · refine ⟨b2, by rw [← hed]; exact hb2, ?_⟩
        simp only at hb
        obtain ⟨b1v, b2v⟩ := b
        obtain ⟨c1v, c2v⟩ := b2
        unfold pairLe at hb hble ⊢
        simp only at hb hble ⊢
        omega
      · exfalso
        have h1 := hmin en hen
        simp only at hb
        obtain ⟨b1v, b2v⟩ := b
        unfold pairLe at hb hble h1
        unfold pairLt at hlt
        simp only at hb hble
        omega

theorem ldMeasure_skip_lt {g : Graph} {en : PqEntry} {rest : List PqEntry} {vis : VMap} :
    ldMeasure g rest vis < ldMeasure g (en :: rest) vis := by
  unfold ldMeasure
  have hsub : (gkeys g ++ gdests g ++ rest.map (fun x => x.2.2.1)).toFinset \
      (vis.map Prod.fst).toFinset ⊆
      (gkeys g ++ gdests g ++ (en :: rest).map (fun x => x.2.2.1)).toFinset \
      (vis.map Prod.fst).toFinset := by
    refine Finset.sdiff_subset_sdiff ?_ (Finset.Subset.refl _)
    intro x hx
    rw [List.mem_toFinset] at hx ⊢
    simp only [List.mem_append] at hx ⊢
    rcases hx with h2 | h2
    · exact Or.inl h2
    · refine Or.inr ?_
      simp only [List.map_cons, List.mem_cons]
      exact Or.inr h2
  have h1 := Finset.card_le_card hsub
  have h2 := Nat.mul_le_mul_left (totalEdges g + 1) h1
  simp only [List.length_cons]
  omega

theorem ldMeasure_expand_lt {g : Graph} {d h : Nat} {a : String} {p : List String}
    {rest pushes : List PqEntry} {vis : VMap} (ha : a ∉ vis.map Prod.fst)
    (hdest : ∀ x ∈ pushes, x.2.2.1 ∈ gdests g)
    (hlen : pushes.length ≤ totalEdges g) :
    ldMeasure (touch g a) (pushAll rest pushes) (vset vis a (d, h)) <
      ldMeasure g ((d, h, a, p) :: rest) vis := by
  have hperm := pushAll_perm pushes rest
  unfold ldMeasure
  rw [totalEdges_touch]
  set SN := (gkeys (touch g a) ++ gdests (touch g a) ++
    (pushAll rest pushes).map (fun x => x.2.2.1)).toFinset \
    ((vset vis a (d, h)).map Prod.fst).toFinset with hSN
  set SO := (gkeys g ++ gdests g ++
    ((d, h, a, p) :: rest).map (fun x => x.2.2.1)).toFinset \
    (vis.map Prod.fst).toFinset with hSO
  have hsub : SN ⊆ SO := by
    rw [hSN, hSO]
    intro x hx
    rw [Finset.mem_sdiff] at hx ⊢
    obtain ⟨hx1, hx2⟩ := hx
    rw [List.mem_toFinset] at hx1
    have hxa : x ≠ a := by
      intro hq
      apply hx2
      rw [List.mem_toFinset, vset_keys_mem]
      exact Or.inl hq
    have hxv : x ∉ vis.map Prod.fst := by
      intro hq
      apply hx2
      rw [List.mem_toFinset, vset_keys_mem]
      exact Or.inr hq
    refine ⟨?_, by rw [List.mem_toFinset]; exact hxv⟩
    rw [List.mem_toFinset]
    rw [gdests_touch] at hx1
    simp only [List.mem_append] at hx1 ⊢
    rcases hx1 with (hk | hd2) | hq
    · rcases gkeys_touch g a x hk with h2 | rfl
      · exact Or.inl (Or.inl h2)
      · exact absurd rfl hxa
    · exact Or.inl (Or.inr hd2)
    · rw [(hperm.map (fun x : PqEntry => x.2.2.1)).mem_iff, List.map_append,
        List.mem_append] at hq
      rcases hq with h2 | h2
      · refine Or.inr ?_
        simp only [List.map_cons, List.mem_cons]
        exact Or.inr h2
      · obtain ⟨en, hen, rfl⟩ := List.mem_map.mp h2
        exact Or.inl (Or.inr (hdest en hen))
  have hamem : a ∈ SO := by
    rw [hSO, Finset.mem_sdiff, List.mem_toFinset, List.mem_toFinset]
    refine ⟨?_, ha⟩
    simp
  have hanot : a ∉ SN := by
    rw [hSN, Finset.mem_sdiff]
    rintro ⟨_, h2⟩
    apply h2
    rw [List.mem_toFinset, vset_keys_mem]
    exact Or.inl rfl
  have hlt : SN.card < SO.card :=
    Finset.card_lt_card ((Finset.ssubset_iff_of_subset hsub).mpr ⟨a, hamem, hanot⟩)
  have h1 : (totalEdges g + 1) * SN.card + (totalEdges g + 1) ≤ (totalEdges g + 1) * SO.card := by
    have h2 := Nat.mul_le_mul_left (totalEdges g + 1) (Nat.succ_le_of_lt hlt)
    rw [Nat.mul_succ] at h2
    exact h2
  have h3 : (pushAll rest pushes).length ≤ rest.length + totalEdges g := by
    rw [hperm.length_eq, List.length_append]
    omega
  simp only [List.length_cons]
  omega

/-- Master lemma for the `least_distance` loop: with enough fuel, the
loop completes, only extends the graph by fresh empty keys, and returns
a valid path realizing the returned total distance that is
distance-minimal and, on distance ties, hop-minimal (or correctly
reports that no path exists). -/
theorem ld_master (g0 : Graph) (s endA ac : String) :
    ∀ (fuel : Nat) (g : Graph) (pq : List PqEntry) (vis : VMap),
    LdInv g0 s endA ac g pq vis →
    ldMeasure g pq vis < fuel →
    ∃ r g2, ldLoop endA ac fuel g pq vis = some (r, g2) ∧ TouchExt g0 g2 ∧
      (∀ D p, r = some (D, p) → p.head? = some s ∧ p.getLast? = some endA ∧
        costOf g0 ac p D ∧
        (∀ q c, costOf g0 ac q c → q.head? = some s → q.getLast? = some endA → D ≤ c) ∧
        (∀ q c, costOf g0 ac q c → q.head? = some s → q.getLast? = some endA → c = D →
          p.length ≤ q.length)) ∧
      (r = none → ∀ q c, costOf g0 ac q c → q.head? = some s → q.getLast? = some endA →
        False)
  | 0, g, pq, vis => by
    intro _ hm
    exact absurd hm (Nat.not_lt_zero _)
  | fuel + 1, g, [], vis => by
    intro inv _
    refine ⟨none, g, rfl, inv.ext, by intro D p hp; simp at hp, ?_⟩
    intro _ q c hok hh hl
    obtain ⟨b, hb, _⟩ := ld_chain inv (c + 1) 0
      (by intro en hen; simp at hen) q c hok hh endA hl
      (by unfold pairLt; omega)
    exact inv.endF b hb
  | fuel + 1, g, (d, h, a, p) :: rest, vis => by
    intro inv hm
    simp only [ldLoop]
    have hmin : ∀ en ∈ (d, h, a, p) :: rest, pairLe (d, h) (en.1, en.2.1) := by
      intro en hen
      exact entryLe_pairLe (sorted_head_le inv.srt en hen)
    by_cases hend : a == endA
    · rw [if_pos hend]
      have haend : a = endA := by simpa using hend
      refine ⟨some (d, p), g, rfl, inv.ext, ?_, by intro hq; simp at hq⟩
      intro D p2 hDp
      have hinj := Option.some.inj hDp
      rw [Prod.ext_iff] at hinj
      obtain ⟨hd1, hp1⟩ := hinj
      simp only at hd1 hp1
      subst hd1
      subst hp1
      obtain ⟨hh, hl, hcost, hlenp⟩ := inv.wf (d, h, a, p) (by simp)
      simp only at hh hl hcost hlenp
      refine ⟨hh, by rw [← haend]; exact hl, hcost, ?_, ?_⟩
      · intro q c hq hhq hlq
        by_contra hcon
        push_neg at hcon
        obtain ⟨b, hb, _⟩ := ld_chain inv d h hmin q c hq hhq endA hlq
          (by unfold pairLt; omega)
        exact inv.endF b (haend ▸ hb)
      · intro q c hq hhq hlq hcd
        subst hcd
        by_contra hcon
        push_neg at hcon
        have hqne : 0 < q.length := List.length_pos.mpr (costOf_ne_nil hq)
        obtain ⟨b, hb, _⟩ := ld_chain inv c h hmin q c hq hhq endA hlq
          (by unfold pairLt; omega)
        exact inv.endF b (haend ▸ hb)
    · rw [if_neg hend]
      by_cases hskip : (match vget vis a with
          | some (bd, bh) => decide (bd < d) || (decide (d = bd) && decide (bh ≤ h))
          | none => false) = true
      · rw [if_pos hskip]
        cases hv : vget vis a with
        | none => rw [hv] at hskip; simp at hskip
        | some bb =>
          obtain ⟨bd, bh⟩ := bb
          rw [hv] at hskip
          simp only [Bool.or_eq_true, Bool.and_eq_true, decide_eq_true_eq] at hskip
          have hle : pairLe (bd, bh) (d, h) := by unfold pairLe; omega
          have hlt := @ldMeasure_skip_lt g (d, h, a, p) rest vis
          exact ld_master g0 s endA ac fuel g rest vis (ldInv_skip inv hv hle) (by omega)
      · rw [if_neg hskip]
        have hane : a ≠ endA := by simpa using hend
        have ha : ∀ bd bh, vget vis a = some (bd, bh) → pairLt (d, h) (bd, bh) := by
          intro bd bh hsome
          rw [hsome] at hskip
          simp only [Bool.or_eq_true, Bool.and_eq_true, decide_eq_true_eq] at hskip
          push_neg at hskip
          unfold pairLt
          omega
        have hanot : a ∉ vis.map Prod.fst := by
          intro hq
          obtain ⟨v, hvmem, hv1⟩ := List.mem_map.mp hq
          have hva : (a, v.2) ∈ vis := by
            have : v = (a, v.2) := by
              rw [Prod.ext_iff]
              exact ⟨hv1, rfl⟩
            rw [← this]
            exact hvmem
          have h1 : pairLe v.2 (d, h) := inv.visLe v hvmem (d, h, a, p) (by simp)
          have h2 : pairLt (d, h) v.2 := ha v.2.1 v.2.2 (mem_vget inv.knd hva)
          exact pairLt_asymm h2 h1
        have hdest : ∀ x ∈ ((dget g a).filter (fun e => e.aircraft == ac)).map
            (fun e => (d + e.distance, h + 1, e.dest, p ++ [e.dest])),
            x.2.2.1 ∈ gdests g := by
          intro x hx
          obtain ⟨e, he, rfl⟩ := List.mem_map.mp hx
          exact dest_mem_gdests (List.mem_filter.mp he).1
        have hplen : (((dget g a).filter (fun e => e.aircraft == ac)).map
            (fun e => (d + e.distance, h + 1, e.dest, p ++ [e.dest]))).length ≤
            totalEdges g := by
          rw [List.length_map]
          exact Nat.le_trans (List.length_filter_le _ _) (dget_length_le g a)
        have hlt := @ldMeasure_expand_lt g d h a p rest _ vis hanot hdest hplen
        exact ld_master g0 s endA ac fuel (touch g a) _ _ (ldInv_expand inv ha hane) (by omega)

theorem ldInv_init (g : Graph) (s endA ac : String) :
    LdInv g s endA ac g [(0, 0, s, [s])] [] := by
  refine ⟨touchExt_refl g, List.sorted_singleton _, ?_, ?_, ?_, Or.inr ⟨rfl, rfl⟩, ?_, ?_⟩
  · intro en hen
    simp at hen
    subst hen
    exact ⟨rfl, rfl, costOf.single s, rfl⟩
  · intro v hv
    simp at hv
  · intro v hv
    simp at hv
  · intro b hb
    simp at hb
  · simp

/-- Every `least_distance` run completes, only appends fresh empty keys
to the graph, and returns a distance-minimal (tie-broken by hops) valid
path together with its total distance, or a correct no-route answer. -/
theorem least_distance_run_spec (g : Graph) (s endA ac : String) :
    ∃ r g2, least_distance_run g s endA ac = some (r, g2) ∧ TouchExt g g2 ∧
      (∀ D p, r = some (D, p) → p.head? = some s ∧ p.getLast? = some endA ∧
        costOf g ac p D ∧
        (∀ q c, costOf g ac q c → q.head? = some s → q.getLast? = some endA → D ≤ c) ∧
        (∀ q c, costOf g ac q c → q.head? = some s → q.getLast? = some endA → c = D →
          p.length ≤ q.length)) ∧
      (r = none → ∀ q c, costOf g ac q c → q.head? = some s → q.getLast? = some endA →
        False) := by
  have h := ld_master g s endA ac (ldFuel g s) g [(0, 0, s, [s])] [] (ldInv_init g s endA ac)
    (by unfold ldFuel; omega)
  rw [least_distance_run]
  exact h

/-! ### Graph construction from records -/

theorem dget_add_route (g : Graph) (dep dst ac : String) (w : Nat) (d : String) :
    dget (add_route g dep dst ac w) d =
      if d = dep then dget g d ++ [⟨dst, ac, w⟩] else dget g d := by
  induction g with
  | nil =>
    by_cases hd : d = dep
    · subst hd
      simp [add_route, dget]
    · rw [if_neg hd]
      simp only [add_route, dget]
      rw [List.find?_cons_of_neg _ (by simpa using fun hq => hd hq.symm)]
  | cons pr rest ih =>
    obtain ⟨k, es⟩ := pr
    simp only [add_route]
    by_cases hk : k == dep
    · rw [if_pos hk]
      have hkd : k = dep := by simpa using hk
      subst hkd
      by_cases hd : d = k
      · subst hd
        simp [dget]
      · rw [if_neg hd]
        simp only [dget]
        rw [List.find?_cons_of_neg _ (by simpa using fun hq => hd hq.symm),
          List.find?_cons_of_neg _ (by simpa using fun hq => hd hq.symm)]
    · rw [if_neg hk]
      have hkd : k ≠ dep := by simpa using hk
      by_cases hd : d = k
      · subst hd
        rw [if_neg hkd]
        simp [dget]
      · simp only [dget]
        rw [List.find?_cons_of_neg _ (by simpa using fun hq => hd hq.symm),
          List.find?_cons_of_neg _ (by simpa using fun hq => hd hq.symm)]
        have := ih
        simp only [dget] at this
        by_cases hdd : d = dep
        · rw [if_pos hdd] at this ⊢
          exact this
        · rw [if_neg hdd] at this ⊢
          exact this

theorem gkeys_add_route (g : Graph) (dep dst ac : String) (w : Nat) (x : String) :
    x ∈ gkeys (add_route g dep dst ac w) ↔ x ∈ gkeys g ∨ x = dep := by
  induction g with
  | nil => simp [add_route, gkeys]
  | cons pr rest ih =>
    obtain ⟨k, es⟩ := pr
    simp only [add_route]
    by_cases hk : k == dep
    · rw [if_pos hk]
      have hkd : k = dep := by simpa using hk
      subst hkd
      simp only [gkeys, List.map_cons, List.mem_cons]
      constructor
      · rintro (rfl | h)
        · exact Or.inr rfl
        · exact Or.inl (Or.inr h)
      · rintro ((rfl | h) | rfl)
        · exact Or.inl rfl
        · exact Or.inr h
        · exact Or.inl rfl
    · rw [if_neg hk]
      simp only [gkeys, List.map_cons, List.mem_cons] at ih ⊢
      constructor
      · rintro (rfl | h)
        · exact Or.inl (Or.inl rfl)
        · rcases ih.mp h with h2 | h2
          · exact Or.inl (Or.inr h2)
          · exact Or.inr h2
      · rintro ((rfl | h) | rfl)
        · exact Or.inl rfl
        · exact Or.inr (ih.mpr (Or.inl h))
        · exact Or.inr (ih.mpr (Or.inr rfl))

theorem dget_buildGraph_aux (rs : List (String × String × String × Nat)) :
    ∀ (g : Graph) (d : String),
    dget (rs.foldl (fun g2 r => add_route g2 r.1 r.2.1 r.2.2.1 r.2.2.2) g) d =
      dget g d ++ (rs.filter (fun r => r.1 == d)).map
        (fun r => ⟨r.2.1, r.2.2.1, r.2.2.2⟩) := by
  induction rs with
  | nil => intro g d; simp
  | cons r rest ih =>
    intro g d
    rw [List.foldl_cons, ih]
    rw [dget_add_route]
    by_cases hd : d = r.1
    · rw [if_pos hd]
      have : (r.1 == d) = true := by simp [hd]
      rw [List.filter_cons, if_pos this, List.map_cons, List.append_assoc]
      rfl
    · rw [if_neg hd]
      have : ¬(r.1 == d) = true := by simpa using fun hq => hd hq.symm
      rw [List.filter_cons, if_neg this]

theorem gkeys_buildGraph_aux (rs : List (String × String × String × Nat)) :
    ∀ (g : Graph) (x : String),
    x ∈ gkeys (rs.foldl (fun g2 r => add_route g2 r.1 r.2.1 r.2.2.1 r.2.2.2) g) ↔
      x ∈ gkeys g ∨ x ∈ rs.map (fun r => r.1) := by
  induction rs with
  | nil => intro g x; simp
  | cons r rest ih =>
    intro g x
    rw [List.foldl_cons, ih, gkeys_add_route]
    simp only [List.map_cons, List.mem_cons]
    tauto

/-! ### unique_list -/

theorem uniqueGo_sublist : ∀ (items : List RouteRecord)
    (seen : List (String × String × String × Int)), (uniqueGo items seen).Sublist items := by
  intro items
  induction items with
  | nil => intro seen; simp [uniqueGo]
  | cons item rest ih =>
    intro seen
    simp only [uniqueGo]
    by_cases h1 : rkey item ∈ seen
    · rw [if_pos h1]
      exact (ih seen).trans (List.sublist_cons_self item rest)
    · rw [if_neg h1]
      by_cases h2 : item.distance = 0
      · rw [if_pos h2]
        exact (ih _).trans (List.sublist_cons_self item rest)
      · rw [if_neg h2]
        exact (ih _).cons₂ item

theorem uniqueGo_keys : ∀ (items : List RouteRecord)
    (seen : List (String × String × String × Int)),
    (uniqueGo items seen).Pairwise (fun a b => rkey a ≠ rkey b) ∧
    ∀ r ∈ uniqueGo items seen, rkey r ∉ seen := by
  intro items
  induction items with
  | nil => intro seen; simp [uniqueGo]
  | cons item rest ih =>
    intro seen
    simp only [uniqueGo]
    by_cases h1 : rkey item ∈ seen
    · rw [if_pos h1]
      exact ih seen
    · rw [if_neg h1]
      by_cases h2 : item.distance = 0
      · rw [if_pos h2]
        refine ⟨(ih _).1, ?_⟩
        intro r hr
        have := (ih _).2 r hr
        intro hcon
        exact this (by simp [hcon])
      · rw [if_neg h2]
        constructor
        · refine List.Pairwise.cons ?_ (ih _).1
          intro r hr
          have := (ih _).2 r hr
          intro hcon
          exact this (by simp [← hcon])
        · intro r hr
          rcases List.mem_cons.mp hr with rfl | hr2
          · exact h1
          · have := (ih _).2 r hr2
            intro hcon
            exact this (by simp [hcon])

theorem uniqueGo_dist_ne : ∀ (items : List RouteRecord)
    (seen : List (String × String × String × Int)),
    ∀ r ∈ uniqueGo items seen, r.distance ≠ 0 := by
  intro items
  induction items with
  | nil => intro seen r hr; simp [uniqueGo] at hr
  | cons item rest ih =>
    intro seen r hr
    simp only [uniqueGo] at hr
    by_cases h1 : rkey item ∈ seen
    · rw [if_pos h1] at hr
      exact ih seen r hr
    · rw [if_neg h1] at hr
      by_cases h2 : item.distance = 0
      · rw [if_pos h2] at hr
        exact ih _ r hr
      · rw [if_neg h2] at hr
        rcases List.mem_cons.mp hr with rfl | hr2
        · exact h2
        · exact ih _ r hr2

theorem uniqueGo_complete : ∀ (items : List RouteRecord)
    (seen : List (String × String × String × Int)),
    ∀ r ∈ items, r.distance ≠ 0 → rkey r ∉ seen →
    ∃ r2 ∈ uniqueGo items seen, rkey r2 = rkey r := by
  intro items
  induction items with
  | nil => intro seen r hr; simp at hr
  | cons item rest ih =>
    intro seen r hr hd hs
    simp only [uniqueGo]
    by_cases h1 : rkey item ∈ seen
    · rw [if_pos h1]
      rcases List.mem_cons.mp hr with rfl | hr2
      · exact absurd h1 hs
      · exact ih seen r hr2 hd hs
    · rw [if_neg h1]
      by_cases hkey : rkey r = rkey item
      · have hdist : item.distance = r.distance := by
          have := congrArg (fun q => q.2.2.2) hkey
          simpa [rkey] using this.symm
        by_cases h2 : item.distance = 0
        · exact absurd (hdist ▸ h2) hd
        · rw [if_neg h2]
          exact ⟨item, by simp, hkey.symm⟩
      · rcases List.mem_cons.mp hr with rfl | hr2
        · exact absurd rfl hkey
        · by_cases h2 : item.distance = 0
          · rw [if_pos h2]
            refine ih _ r hr2 hd ?_
            intro hcon
            rcases List.mem_cons.mp hcon with h3 | h3
            · exact hkey h3
            · exact hs h3
          · rw [if_neg h2]
            obtain ⟨r2, hr2m, hr2k⟩ := ih (rkey item :: seen) r hr2 hd (by
              intro hcon
              rcases List.mem_cons.mp hcon with h3 | h3
              · exact hkey h3
              · exact hs h3)
            exact ⟨r2, by simp [hr2m], hr2k⟩

theorem rkey_inj {r1 r2 : RouteRecord} (h : rkey r1 = rkey r2) : r1 = r2 := by
  obtain ⟨d1, t1, a1, w1⟩ := r1
  obtain ⟨d2, t2, a2, w2⟩ := r2
  simp only [rkey, Prod.ext_iff] at h
  obtain ⟨h1, h2, h3, h4⟩ := h
  subst h1
  subst h2
  subst h3
  subst h4
  rfl

theorem uniqueGo_eq_spec : ∀ (items : List RouteRecord)
    (seen : List (String × String × String × Int)) (prev : List RouteRecord),
    (∀ k, k ∈ seen ↔ ∃ p ∈ prev, rkey p = k) →
    uniqueGo items seen = uniqueSpecGo items prev := by
  intro items
  induction items with
  | nil => intro seen prev _; rfl
  | cons r rest ih =>
    intro seen prev hinv
    have hcond : rkey r ∈ seen ↔ r ∈ prev := by
      rw [hinv (rkey r)]
      constructor
      · rintro ⟨p, hp, hpk⟩
        rw [← rkey_inj hpk]
        exact hp
      · intro hp
        exact ⟨r, hp, rfl⟩
    have hinv2 : ∀ k, k ∈ rkey r :: seen ↔ ∃ p ∈ prev ++ [r], rkey p = k := by
      intro k
      constructor
      · intro hk
        rcases List.mem_cons.mp hk with rfl | hk2
        · exact ⟨r, by simp, rfl⟩
        · obtain ⟨p, hp, hpk⟩ := (hinv k).mp hk2
          exact ⟨p, by simp [hp], hpk⟩
      · rintro ⟨p, hp, hpk⟩
        rcases List.mem_append.mp hp with hp2 | hp2
        · exact List.mem_cons.mpr (Or.inr ((hinv k).mpr ⟨p, hp2, hpk⟩))
        · have hpr : p = r := by simpa using hp2
          subst hpr
          exact List.mem_cons.mpr (Or.inl hpk.symm)
    simp only [uniqueGo, uniqueSpecGo]
    by_cases h1 : rkey r ∈ seen
    · rw [if_pos h1, if_pos (hcond.mp h1)]
      refine ih seen (prev ++ [r]) ?_
      intro k
      constructor
      · intro hk
        obtain ⟨p, hp, hpk⟩ := (hinv k).mp hk
        exact ⟨p, by simp [hp], hpk⟩
      · rintro ⟨p, hp, hpk⟩
        rcases List.mem_append.mp hp with hp2 | hp2
        · exact (hinv k).mpr ⟨p, hp2, hpk⟩
        · have hpr : p = r := by simpa using hp2
          subst hpr
          exact hpk ▸ h1
    · rw [if_neg h1, if_neg (fun hq => h1 (hcond.mpr hq))]
      by_cases h2 : r.distance = 0
      · rw [if_pos h2, if_pos h2]
        exact ih _ _ hinv2
      · rw [if_neg h2, if_neg h2]
        rw [ih _ _ hinv2]

/-! ### Wrapper projections -/

theorem fewest_legs_eq_of_run {g : Graph} {s e ac : String} {r : Option (List String)}
    {g2 : Graph} (h : fewest_legs_run g s e ac = some (r, g2)) : fewest_legs g s e ac = r := by
  unfold fewest_legs
  rw [h]

theorem fewest_legs_graph_eq_of_run {g : Graph} {s e ac : String} {r : Option (List String)}
    {g2 : Graph} (h : fewest_legs_run g s e ac = some (r, g2)) :
    fewest_legs_graph g s e ac = g2 := by
  unfold fewest_legs_graph
  rw [h]

theorem least_distance_eq_of_run {g : Graph} {s e ac : String}
    {r : Option (Nat × List String)} {g2 : Graph}
    (h : least_distance_run g s e ac = some (r, g2)) : least_distance g s e ac = r := by
  unfold least_distance
  rw [h]

theorem least_distance_graph_eq_of_run {g : Graph} {s e ac : String}
    {r : Option (Nat × List String)} {g2 : Graph}
    (h : least_distance_run g s e ac = some (r, g2)) :
    least_distance_graph g s e ac = g2 := by
  unfold least_distance_graph
  rw [h]

/-- The tie-break scenario graph of the spec: edges A→B (100), B→D (100)
and A→D (200), all with aircraft type X. -/
def tieGraph : Graph :=
  buildGraph [("A", "B", "X", 100), ("B", "D", "X", 100), ("A", "D", "X", 200)]

/-- A one-edge graph used to instantiate theorems at concrete inputs. -/
def oneGraph : Graph := buildGraph [("A", "B", "X", 5)]

/-- All edge distances of the graph are strictly positive. -/
def PosDists (g : Graph) : Prop := ∀ pr ∈ g, ∀ e ∈ pr.2, 0 < e.distance

theorem no_matching_edge_no_path {g : Graph} {s e ac : String}
    (hno : ∀ e2 ∈ dget g s, e2.aircraft ≠ ac) (hne : s ≠ e) :
    ∀ p, pathOK g ac p → p.head? = some s → p.getLast? = some e → False := by
  intro p hok hh hl
  cases p with
  | nil => simp at hh
  | cons w t =>
    have hw : w = s := by simpa using hh
    subst hw
    cases t with
    | nil =>
      simp at hl
      exact hne hl
    | cons b t2 =>
      obtain ⟨⟨e2, he2, hac, _⟩, _⟩ := hok
      exact hno e2 he2 hac

/-! ### The claims -/

/-- C1: whenever `least_distance(G, s, e, A)` returns a pair `(D, P)`,
the path `P` starts at `s` and ends at `e`, every consecutive pair of
airports in `P` is connected by a stored edge with aircraft `A`, `D` is
the sum of the distances of those edges, no path from `s` to `e` using
only edges with aircraft `A` has total distance strictly less than `D`,
and among all such paths of total distance `D` the path `P` has the
minimum number of hops. -/
theorem C1_least_distance_optimal (g : Graph) (s e ac : String) (D : Nat) (P : List String)
    (h : least_distance g s e ac = some (D, P)) :
    P.head? = some s ∧ P.getLast? = some e ∧ pathOK g ac P ∧ costOf g ac P D ∧
    (∀ q c, costOf g ac q c → q.head? = some s → q.getLast? = some e → D ≤ c) ∧
    (∀ q c, costOf g ac q c → q.head? = some s → q.getLast? = some e → c = D →
      P.length - 1 ≤ q.length - 1) := by
  obtain ⟨r, g2, hrun, _, hsome, _⟩ := least_distance_run_spec g s e ac
  rw [least_distance_eq_of_run hrun] at h
  obtain ⟨h1, h2, h3, h4, h5⟩ := hsome D P h
  exact ⟨h1, h2, costOf_pathOK h3, h3, h4,
    fun q c hq hh hl hc => Nat.sub_le_sub_right (h5 q c hq hh hl hc) 1⟩

/-- Witness for C1 at the one-edge graph. -/
theorem C1_least_distance_optimal_witness :
    least_distance oneGraph "A" "B" "X" = some (5, ["A", "B"]) ∧
    ((["A", "B"] : List String).head? = some "A" ∧
      (["A", "B"] : List String).getLast? = some "B" ∧
      pathOK oneGraph "X" ["A", "B"] ∧ costOf oneGraph "X" ["A", "B"] 5 ∧
      (∀ q c, costOf oneGraph "X" q c → q.head? = some "A" → q.getLast? = some "B" →
        5 ≤ c) ∧
      (∀ q c, costOf oneGraph "X" q c → q.head? = some "A" → q.getLast? = some "B" →
        c = 5 → (["A", "B"] : List String).length - 1 ≤ q.length - 1)) :=
  ⟨by decide, C1_least_distance_optimal oneGraph "A" "B" "X" 5 ["A", "B"] (by decide)⟩

/-- C2: whenever `fewest_legs(G, s, e, A)` returns a path `P`, the path
`P` starts at `s` and ends at `e`, every consecutive pair of airports in
`P` is connected by a stored edge with aircraft `A`, and no path from
`s` to `e` using only edges with aircraft `A` has strictly fewer edges
than `P`. -/
theorem C2_fewest_legs_minimal (g : Graph) (s e ac : String) (P : List String)
    (h : fewest_legs g s e ac = some P) :
    P.head? = some s ∧ P.getLast? = some e ∧ pathOK g ac P ∧
    ∀ q, pathOK g ac q → q.head? = some s → q.getLast? = some e →
      P.length - 1 ≤ q.length - 1 := by
  obtain ⟨r, g2, hrun, _, hsome, _⟩ := fewest_legs_run_spec g s e ac
  rw [fewest_legs_eq_of_run hrun] at h
  obtain ⟨h1, h2, h3, h4⟩ := hsome P h
  exact ⟨h1, h2, h3, fun q hq hh hl => Nat.sub_le_sub_right (h4 q hq hh hl) 1⟩

/-- Witness for C2 at the one-edge graph. -/
theorem C2_fewest_legs_minimal_witness :
    fewest_legs oneGraph "A" "B" "X" = some ["A", "B"] ∧
    ((["A", "B"] : List String).head? = some "A" ∧
      (["A", "B"] : List String).getLast? = some "B" ∧
      pathOK oneGraph "X" ["A", "B"] ∧
      ∀ q, pathOK oneGraph "X" q → q.head? = some "A" → q.getLast? = some "B" →
        (["A", "B"] : List String).length - 1 ≤ q.length - 1) :=
  ⟨by decide, C2_fewest_legs_minimal oneGraph "A" "B" "X" ["A", "B"] (by decide)⟩

/-- C3 counterexample: on the empty graph, searching from A to B (with
either search) inserts the key A bound to `[]` into the `defaultdict`,
so the set of departure-airport keys after the call differs from the set
before the call, contradicting the claim that the graph value is
unchanged. -/
theorem C3_searches_mutate_counterexample :
    fewest_legs_graph ([] : Graph) "A" "B" "X" = [("A", [])] ∧
    least_distance_graph ([] : Graph) "A" "B" "X" = [("A", [])] ∧
    ([("A", [])] : Graph) ≠ ([] : Graph) ∧
    gkeys [("A", ([] : List Edge))] ≠ gkeys ([] : Graph) := by decide

/-- C3 amended: a search never changes the entry stored under any
pre-existing key and never changes the edge list any lookup observes; it
can only append fresh keys bound to the empty list (the airports it
expanded that had no entry), so the graph as a lookup function is
unchanged. -/
theorem C3_graph_readonly_amended (g : Graph) (s e ac : String) :
    TouchExt g (fewest_legs_graph g s e ac) ∧
    (∀ k, k ∈ gkeys g → (fewest_legs_graph g s e ac).find? (fun pr => pr.1 == k) =
      g.find? (fun pr => pr.1 == k)) ∧
    (∀ b, dget (fewest_legs_graph g s e ac) b = dget g b) ∧
    TouchExt g (least_distance_graph g s e ac) ∧
    (∀ k, k ∈ gkeys g → (least_distance_graph g s e ac).find? (fun pr => pr.1 == k) =
      g.find? (fun pr => pr.1 == k)) ∧
    (∀ b, dget (least_distance_graph g s e ac) b = dget g b) := by
  obtain ⟨r1, g2, hrun1, hext1, _⟩ := fewest_legs_run_spec g s e ac
  obtain ⟨r2, g3, hrun2, hext2, _⟩ := least_distance_run_spec g s e ac
  rw [fewest_legs_graph_eq_of_run hrun1, least_distance_graph_eq_of_run hrun2]
  exact ⟨hext1, fun k hk => hext1.find?_eq hk, fun b => hext1.dget_eq b,
    hext2, fun k hk => hext2.find?_eq hk, fun b => hext2.dget_eq b⟩

/-- Witness for the amended C3 at the one-edge graph. -/
theorem C3_graph_readonly_amended_witness :
    TouchExt oneGraph (fewest_legs_graph oneGraph "A" "C" "X") ∧
    (∀ k, k ∈ gkeys oneGraph →
      (fewest_legs_graph oneGraph "A" "C" "X").find? (fun pr => pr.1 == k) =
      oneGraph.find? (fun pr => pr.1 == k)) ∧
    (∀ b, dget (fewest_legs_graph oneGraph "A" "C" "X") b = dget oneGraph b) ∧
    TouchExt oneGraph (least_distance_graph oneGraph "A" "C" "X") ∧
    (∀ k, k ∈ gkeys oneGraph →
      (least_distance_graph oneGraph "A" "C" "X").find? (fun pr => pr.1 == k) =
      oneGraph.find? (fun pr => pr.1 == k)) ∧
    (∀ b, dget (least_distance_graph oneGraph "A" "C" "X") b = dget oneGraph b) :=
  C3_graph_readonly_amended oneGraph "A" "C" "X"

/-- C4: for `s ≠ e`, each search returns `None` exactly when no path
from `s` to `e` using only edges with aircraft `A` exists; neither
search ever returns an empty path, and when `s` has no outgoing matching
edge both searches return `None`. -/
theorem C4_none_iff_no_route (g : Graph) (s e ac : String) (hne : s ≠ e) :
    (fewest_legs g s e ac = none ↔
      ¬∃ p, pathOK g ac p ∧ p.head? = some s ∧ p.getLast? = some e) ∧
    (least_distance g s e ac = none ↔
      ¬∃ p, pathOK g ac p ∧ p.head? = some s ∧ p.getLast? = some e) ∧
    (∀ p, fewest_legs g s e ac = some p → p ≠ []) ∧
    (∀ D p, least_distance g s e ac = some (D, p) → p ≠ []) ∧
    ((∀ e2 ∈ dget g s, e2.aircraft ≠ ac) →
      fewest_legs g s e ac = none ∧ least_distance g s e ac = none) := by
  obtain ⟨r1, g2, hrun1, _, hsound1, hcomp1⟩ := fewest_legs_run_spec g s e ac
  obtain ⟨r2, g3, hrun2, _, hsound2, hcomp2⟩ := least_distance_run_spec g s e ac
  rw [fewest_legs_eq_of_run hrun1, least_distance_eq_of_run hrun2]
  have hbfs : r1 = none ↔ ¬∃ p, pathOK g ac p ∧ p.head? = some s ∧ p.getLast? = some e := by
    constructor
    · rintro rfl ⟨p, hok, hh, hl⟩
      exact hcomp1 rfl p hok hh hl
    · intro hno
      cases hr : r1 with
      | none => rfl
      | some p =>
        obtain ⟨h1, h2, h3, _⟩ := hsound1 p hr
        exact absurd ⟨p, h3, h1, h2⟩ hno
  have hld : r2 = none ↔ ¬∃ p, pathOK g ac p ∧ p.head? = some s ∧ p.getLast? = some e := by
    constructor
    · rintro rfl ⟨p, hok, hh, hl⟩
      have hpne : p ≠ [] := by
        intro hq
        rw [hq] at hh
        simp at hh
      obtain ⟨c, hc⟩ := pathOK_costOf hok hpne
      exact hcomp2 rfl p c hc hh hl
    · intro hno
      cases hr : r2 with
      | none => rfl
      | some Dp =>
        obtain ⟨D, p⟩ := Dp
        obtain ⟨h1, h2, h3, _⟩ := hsound2 D p hr
        exact absurd ⟨p, costOf_pathOK h3, h1, h2⟩ hno
  refine ⟨hbfs, hld, ?_, ?_, ?_⟩
  · intro p hp hq
    obtain ⟨h1, _⟩ := hsound1 p hp
    rw [hq] at h1
    simp at h1
  · intro D p hp hq
    obtain ⟨h1, _⟩ := hsound2 D p hp
    rw [hq] at h1
    simp at h1
  · intro hno
    have hnop : ¬∃ p, pathOK g ac p ∧ p.head? = some s ∧ p.getLast? = some e := by
      rintro ⟨p, hok, hh, hl⟩
      exact no_matching_edge_no_path hno hne p hok hh hl
    exact ⟨hbfs.mpr hnop, hld.mpr hnop⟩

/-- Witness for C4 at the one-edge graph with an unreachable target. -/
theorem C4_none_iff_no_route_witness :
    ("A" : String) ≠ "C" ∧
    ((fewest_legs oneGraph "A" "C" "X" = none ↔
      ¬∃ p, pathOK oneGraph "X" p ∧ p.head? = some "A" ∧ p.getLast? = some "C") ∧
    (least_distance oneGraph "A" "C" "X" = none ↔
      ¬∃ p, pathOK oneGraph "X" p ∧ p.head? = some "A" ∧ p.getLast? = some "C") ∧
    (∀ p, fewest_legs oneGraph "A" "C" "X" = some p → p ≠ []) ∧
    (∀ D p, least_distance oneGraph "A" "C" "X" = some (D, p) → p ≠ []) ∧
    ((∀ e2 ∈ dget oneGraph "A", e2.aircraft ≠ "X") →
      fewest_legs oneGraph "A" "C" "X" = none ∧
      least_distance oneGraph "A" "C" "X" = none)) :=
  ⟨by decide, C4_none_iff_no_route oneGraph "A" "C" "X" (by decide)⟩

/-- C5: for any graph and aircraft filter, searching from an airport to
itself returns the one-element path immediately: `fewest_legs` yields
`[s]` and `least_distance` yields `(0, [s])`, whether or not `s` occurs
in the graph. -/
theorem C5_degenerate_start_eq_end (g : Graph) (s ac : String) :
    fewest_legs g s s ac = some [s] ∧ least_distance g s s ac = some (0, [s]) := by
  constructor
  · have h : fewest_legs_run g s s ac = some (some [s], g) := by
      unfold fewest_legs_run bfsFuel
      simp [fewestLegsLoop]
    rw [fewest_legs_eq_of_run h]
  · have h : least_distance_run g s s ac = some (some (0, [s]), g) := by
      unfold least_distance_run ldFuel
      simp [ldLoop]
    rw [least_distance_eq_of_run h]

/-- C6: on the concrete tie-break graph (A→B 100, B→D 100, A→D 200, all
aircraft X), `least_distance` prefers the one-leg path on the distance
tie at 200 and returns `(200, [A, D])`. -/
theorem C6_tie_break : least_distance tieGraph "A" "D" "X" = some (200, ["A", "D"]) := by
  decide

/-- C7: on every finite graph with strictly positive edge distances both
searches terminate: the fuelled loops complete within the fuel computed
by the wrappers (`isSome` excludes the fuel-exhaustion outcome). -/
theorem C7_termination (g : Graph) (s e ac : String) (hpos : PosDists g) :
    (fewest_legs_run g s e ac).isSome ∧ (least_distance_run g s e ac).isSome := by
  obtain ⟨r1, g2, hrun1, _⟩ := fewest_legs_run_spec g s e ac
  obtain ⟨r2, g3, hrun2, _⟩ := least_distance_run_spec g s e ac
  rw [hrun1, hrun2]
  exact ⟨rfl, rfl⟩

/-- Witness for C7 at the one-edge graph. -/
theorem C7_termination_witness :
    PosDists oneGraph ∧
    ((fewest_legs_run oneGraph "A" "B" "X").isSome ∧
      (least_distance_run oneGraph "A" "B" "X").isSome) :=
  ⟨by unfold PosDists; decide,
    C7_termination oneGraph "A" "B" "X" (by unfold PosDists; decide)⟩

/-- C8: both searches are deterministic functions of the graph and the
query parameters: two invocations with identical arguments return equal
results. -/
theorem C8_deterministic (g1 g2 : Graph) (s1 s2 e1 e2 a1 a2 : String)
    (hg : g1 = g2) (hs : s1 = s2) (he : e1 = e2) (ha : a1 = a2) :
    fewest_legs g1 s1 e1 a1 = fewest_legs g2 s2 e2 a2 ∧
    least_distance g1 s1 e1 a1 = least_distance g2 s2 e2 a2 := by
  subst hg
  subst hs
  subst he
  subst ha
  exact ⟨rfl, rfl⟩

/-- Witness for C8 at the one-edge graph. -/
theorem C8_deterministic_witness :
    fewest_legs oneGraph "A" "B" "X" = fewest_legs oneGraph "A" "B" "X" ∧
    least_distance oneGraph "A" "B" "X" = least_distance oneGraph "A" "B" "X" :=
  C8_deterministic oneGraph oneGraph "A" "A" "B" "B" "X" "X" rfl rfl rfl rfl

/-- C9: building a graph with one `add_route` call per record, in
sequence order, stores under each departure exactly the edges of that
departure's records in input order, and a departure has an entry exactly
when some record mentions it; `add_route` is a total function, so it
never fails on well-formed input. -/
theorem C9_builder (records : List (String × String × String × Nat)) (d : String) :
    dget (buildGraph records) d =
      (records.filter (fun r => r.1 == d)).map (fun r => ⟨r.2.1, r.2.2.1, r.2.2.2⟩) ∧
    (d ∈ gkeys (buildGraph records) ↔ d ∈ records.map (fun r => r.1)) := by
  constructor
  · have h := dget_buildGraph_aux records [] d
    rw [buildGraph]
    rw [h]
    simp [dget]
  · have h := gkeys_buildGraph_aux records [] d
    rw [buildGraph]
    rw [h]
    simp [gkeys]

/-- Witness for C9 at a concrete record list. -/
theorem C9_builder_witness :
    dget (buildGraph [("A", "B", "X", 5), ("A", "C", "Y", 7)]) "A" =
      (([("A", "B", "X", 5), ("A", "C", "Y", 7)] :
        List (String × String × String × Nat)).filter (fun r => r.1 == "A")).map
        (fun r => ⟨r.2.1, r.2.2.1, r.2.2.2⟩) ∧
    ("A" ∈ gkeys (buildGraph [("A", "B", "X", 5), ("A", "C", "Y", 7)]) ↔
      "A" ∈ ([("A", "B", "X", 5), ("A", "C", "Y", 7)] :
        List (String × String × String × Nat)).map (fun r => r.1)) :=
  C9_builder [("A", "B", "X", 5), ("A", "C", "Y", 7)] "A"

/-- C10 counterexample: `unique_list` keeps a record whose distance is
the negative integer -1, because the code only drops records whose
distance equals zero; so the output can contain a record whose distance
is not strictly positive. -/
theorem C10_negative_survives_counterexample :
    (⟨"A", "B", "X", -1⟩ : RouteRecord) ∈ unique_list [⟨"A", "B", "X", -1⟩] ∧
    ¬(0 < (⟨"A", "B", "X", -1⟩ : RouteRecord).distance) := by decide

/-- C10 amended: `unique_list` equals the scan that keeps a record
exactly when its distance is nonzero and the record has not occurred
earlier in the input (two records are duplicates precisely when all
four tuple fields agree), so the output lists each surviving record at
the position of its first occurrence, in input order; in particular the
output has pairwise distinct tuples, excludes zero distances, is a
sublist of the input, and represents every nonzero-distance input
record, while records with negative distance survive. -/
theorem C10_unique_list_amended (items : List RouteRecord) :
    unique_list items = uniqueListSpec items ∧
    (unique_list items).Pairwise (fun a b => rkey a ≠ rkey b) ∧
    (∀ r ∈ unique_list items, r.distance ≠ 0) ∧
    (unique_list items).Sublist items ∧
    (∀ r ∈ items, r.distance ≠ 0 → ∃ r2 ∈ unique_list items, rkey r2 = rkey r) := by
  refine ⟨uniqueGo_eq_spec items [] [] (by simp), (uniqueGo_keys items []).1,
    uniqueGo_dist_ne items [], uniqueGo_sublist items [], ?_⟩
  intro r hr hd
  exact uniqueGo_complete items [] r hr hd (by simp)

/-- Witness for the amended C10 at a concrete record list. -/
theorem C10_unique_list_amended_witness :
    unique_list [⟨"A", "B", "X", 3⟩] = uniqueListSpec [⟨"A", "B", "X", 3⟩] ∧
    (unique_list [⟨"A", "B", "X", 3⟩]).Pairwise (fun a b => rkey a ≠ rkey b) ∧
    (∀ r ∈ unique_list [⟨"A", "B", "X", 3⟩], r.distance ≠ 0) ∧
    (unique_list [⟨"A", "B", "X", 3⟩]).Sublist [⟨"A", "B", "X", 3⟩] ∧
    (∀ r ∈ [(⟨"A", "B", "X", 3⟩ : RouteRecord)], r.distance ≠ 0 →
      ∃ r2 ∈ unique_list [⟨"A", "B", "X", 3⟩], rkey r2 = rkey r) :=
  C10_unique_list_amended [⟨"A", "B", "X", 3⟩]
